import Mathlib

/-!
Verification of the BeeSV wallet core (Rust sources under src/wallet/src).

Shallow embedding conventions: Rust machine integers are modelled as Nat,
reduced modulo two to the width exactly where the Rust code serializes or
can wrap; byte vectors are List Nat; fallible Rust code returns Except or
Option; Rust panics (out of bounds indexing and slicing) are a distinct
outcome wherever a claim depends on reaching them.  The pure entry points
of external crates (sha2, secp256k1, hmac) are not code of this
repository, so they appear as explicit function parameters of the
embedding, constrained only by hypotheses stating their documented
contracts (output lengths, parse of serialize, signature correctness).
-/

instance {ε α : Type} [DecidableEq ε] [DecidableEq α] : DecidableEq (Except ε α) := fun
  | .ok a, .ok b => if h : a = b then .isTrue (by rw [h]) else .isFalse (by simp [h])
  | .ok _, .error _ => .isFalse (by simp)
  | .error _, .ok _ => .isFalse (by simp)
  | .error e, .error f => if h : e = f then .isTrue (by rw [h]) else .isFalse (by simp [h])

namespace BeeSV

/-- Little-endian byte encoding: w bytes of n modulo 2 to the 8w, least
significant byte first.  Models to_le_bytes on uN in the Rust code. -/
def toLE : Nat → Nat → List Nat
  | 0, _ => []
  | w + 1, n => n % 256 :: toLE w (n / 256)

/-- Reads a little-endian byte list back as a Nat.  Models from_le_bytes. -/
def fromLE : List Nat → Nat
  | [] => 0
  | b :: rest => b + 256 * fromLE rest

/-- Big-endian byte encoding, models to_be_bytes. -/
def toBE (w n : Nat) : List Nat := (toLE w n).reverse

/-- Reads a big-endian byte list back as a Nat. -/
def fromBE (l : List Nat) : Nat := fromLE l.reverse

/-- Model of encode_compact_size in src/wallet/src/sending.rs: Bitcoin
compact-size varint encoding of a u64. -/
def encode_compact_size (input : Nat) : List Nat :=
  if input ≤ 252 then [input]
  else if input ≤ 0xFFFF then 0xFD :: toLE 2 input
  else if input ≤ 0xFFFFFFFF then 0xFE :: toLE 4 input
  else 0xFF :: toLE 8 input

/-- Model of the Input struct in src/wallet/src/sending.rs.  tx_hash is a
byte list (32 bytes for well-formed inputs), index and sequence are u32. -/
structure Input where
  tx_hash : List Nat
  index : Nat
  script_sig : List Nat
  sequence : Nat
deriving DecidableEq

/-- Model of Input::new_decoded. -/
def Input.new_decoded (tx_hash : List Nat) (index : Nat) : Input :=
  { tx_hash := tx_hash, index := index, script_sig := [], sequence := 0xFFFFFFFF }

/-- Model of the Output struct in src/wallet/src/sending.rs.  amount is a
u64, script a byte list. -/
structure Output where
  amount : Nat
  script : List Nat
deriving DecidableEq

/-- Model of the Transaction struct in src/wallet/src/sending.rs. -/
structure Transaction where
  version : Nat
  inputs : List Input
  outputs : List Output
  locktime : Nat
deriving DecidableEq

/-- Model of Transaction::default: version 1, no inputs, no outputs,
locktime 0. -/
def Transaction.default : Transaction :=
  { version := 1, inputs := [], outputs := [], locktime := 0 }

/-- Model of Transaction::add_input (Vec::push on inputs). -/
def Transaction.add_input (t : Transaction) (i : Input) : Transaction :=
  { t with inputs := t.inputs ++ [i] }

/-- Model of Transaction::add_output (Vec::push on outputs). -/
def Transaction.add_output (t : Transaction) (o : Output) : Transaction :=
  { t with outputs := t.outputs ++ [o] }

/-- Serialization of one input, model of From of Input for Vec u8:
byte-reversed tx_hash, LE32 index, varint-prefixed script_sig, LE32
sequence. -/
def serializeInput (i : Input) : List Nat :=
  i.tx_hash.reverse ++ toLE 4 i.index ++ encode_compact_size i.script_sig.length
    ++ i.script_sig ++ toLE 4 i.sequence

/-- Serialization of one output, model of From of Output for Vec u8:
LE64 amount, varint-prefixed script. -/
def serializeOutput (o : Output) : List Nat :=
  toLE 8 o.amount ++ encode_compact_size o.script.length ++ o.script

/-- Serialization of a transaction, model of From of Transaction for
Vec u8 in src/wallet/src/sending.rs. -/
def serializeTransaction (t : Transaction) : List Nat :=
  toLE 4 t.version
    ++ encode_compact_size t.inputs.length ++ (t.inputs.map serializeInput).flatten
    ++ encode_compact_size t.outputs.length ++ (t.outputs.map serializeOutput).flatten
    ++ toLE 4 t.locktime

/-- Model of Transaction::suggested_fee: serialized length plus 34 plus
107 per input. -/
def Transaction.suggested_fee (t : Transaction) : Nat :=
  (serializeTransaction t).length + 34 + 107 * t.inputs.length

/-- SIGHASH flag accessors from src/wallet/src/sending.rs, on the raw u32
value.  base is the low five bits (value AND 0x1F). -/
def sigBase (v : Nat) : Nat := Nat.land v 0x1F

/-- BaseSigHash::has_single: base equals 3. -/
def baseHasSingle (v : Nat) : Bool := sigBase v == 3

/-- BaseSigHash::has_none: base equals 2. -/
def baseHasNone (v : Nat) : Bool := sigBase v == 2

/-- SigHash::has_fork_id: value AND 0x40 equals 0x40. -/
def hasForkId (v : Nat) : Bool := Nat.land v 0x40 == 0x40

/-- SigHash::has_anyone_can_pay: value AND 0x80 equals 0x80. -/
def hasAnyoneCanPay (v : Nat) : Bool := Nat.land v 0x80 == 0x80

/-- Signature errors from src/wallet/src/sending.rs.  InputOutOfBounds
carries the index and the number of inputs as in the source. -/
inductive SignatureError
  | inputOutOfBounds (index count : Nat)
  | missingInput (tx_hash : List Nat) (index : Nat)
  | missingKey
  | invalidScript
deriving DecidableEq

/-- Modelled from the spec: the constant script::OP_CODESEPARATOR of the
module src/wallet/src/script.rs, which sending.rs references but which is
absent from the sources; the spec states the byte stripped by the legacy
preimage is 0xAB. -/
def OP_CODESEPARATOR : Nat := 0xAB

/-- u64 maximum, used by the legacy SINGLE preimage for blanked outputs. -/
def u64MAX : Nat := 2 ^ 64 - 1

/-- Model of Transaction::has_invalid_flag: index at or past the number of
inputs, or base SINGLE with index at or past the number of outputs. -/
def Transaction.has_invalid_flag (t : Transaction) (index : Nat) (v : Nat) : Bool :=
  decide (t.inputs.length ≤ index) || (baseHasSingle v && decide (t.outputs.length ≤ index))

/-- The per-input rewrite of the legacy preimage clone: every input other
than the signed one gets an empty script_sig and, under base SINGLE or
NONE, sequence zero; the signed input gets the previous locking script
with OP_CODESEPARATOR bytes removed.  Models the first loop of
Transaction::hash_original followed by the script_sig assignment. -/
def cloneInputs (v : Nat) (index : Nat) (newSig : List Nat) : Nat → List Input → List Input
  | _, [] => []
  | i, inp :: rest =>
    (if i = index then
      { inp with script_sig := newSig }
    else
      { inp with
        script_sig := []
        sequence := if baseHasSingle v || baseHasNone v then 0 else inp.sequence })
      :: cloneInputs v index newSig (i + 1) rest

/-- The output rewrite of the legacy preimage clone under base SINGLE:
every slot of the truncated output list other than the signed index is
replaced by amount u64MAX with an empty script.  Models the second loop
of Transaction::hash_original. -/
def blankOutputs (index : Nat) : Nat → List Output → List Output
  | _, [] => []
  | i, o :: rest =>
    (if i = index then o else { amount := u64MAX, script := [] }) :: blankOutputs index (i + 1) rest

/-- Model of Transaction::hash_original from src/wallet/src/sending.rs:
the pre-fork SIGHASH preimage.  dsha256 is the double-SHA-256 of the
external sha2 crate, passed as a parameter. -/
def Transaction.hash_original (dsha256 : List Nat → List Nat) (t : Transaction)
    (index : Nat) (script : List Nat) (v : Nat) : Except SignatureError (List Nat) :=
  if t.has_invalid_flag index v then
    .error (.inputOutOfBounds index t.inputs.length)
  else
    let newSig := script.filter (· ≠ OP_CODESEPARATOR)
    let inputs1 := cloneInputs v index newSig 0 t.inputs
    let inputs2 :=
      if hasAnyoneCanPay v then [{ t.inputs.getD index ⟨[], 0, [], 0⟩ with script_sig := newSig }]
      else inputs1
    let outputs1 :=
      if baseHasNone v then []
      else if baseHasSingle v then blankOutputs index 0 (t.outputs.take (index + 1))
      else t.outputs
    let clone : Transaction :=
      { version := t.version, inputs := inputs2, outputs := outputs1, locktime := t.locktime }
    .ok (dsha256 (serializeTransaction clone ++ toLE 4 v))

/-- Result of a preimage computation: a hash, a propagated SignatureError,
or a Rust panic from out-of-bounds indexing. -/
inductive HashResult
  | ok (h : List Nat)
  | err (e : SignatureError)
  | panicked
deriving DecidableEq

/-- Model of Transaction::hash_fork from src/wallet/src/sending.rs: the
BIP143-style FORKID preimage.  When the FORKID bit is clear it delegates
to hash_original; indexing inputs at an out-of-bounds position is a
panic. -/
def Transaction.hash_fork (dsha256 : List Nat → List Nat) (t : Transaction)
    (index : Nat) (script : List Nat) (v : Nat) (amount : Nat) : HashResult :=
  if hasForkId v = false then
    match t.hash_original dsha256 index script v with
    | .ok h => .ok h
    | .error e => .err e
  else if h : index < t.inputs.length then
    let inp := t.inputs.get ⟨index, h⟩
    let prevoutsHash :=
      if hasAnyoneCanPay v then List.replicate 32 0
      else dsha256 ((t.inputs.map (fun i => i.tx_hash.reverse ++ toLE 4 i.index)).flatten)
    let sequenceHash :=
      if hasAnyoneCanPay v || baseHasSingle v || baseHasNone v then List.replicate 32 0
      else dsha256 ((t.inputs.map (fun i => toLE 4 i.sequence)).flatten)
    let outputsHash :=
      if baseHasSingle v && decide (index < t.outputs.length) then
        dsha256 (serializeOutput (t.outputs.getD index ⟨0, []⟩))
      else if !baseHasSingle v && !baseHasNone v then
        dsha256 ((t.outputs.map serializeOutput).flatten)
      else List.replicate 32 0
    .ok (dsha256 (toLE 4 t.version ++ prevoutsHash ++ sequenceHash
      ++ inp.tx_hash.reverse ++ toLE 4 inp.index
      ++ encode_compact_size script.length ++ script
      ++ toLE 8 amount ++ toLE 4 inp.sequence
      ++ outputsHash ++ toLE 4 t.locktime ++ toLE 4 v))
  else .panicked

/-- Model of Output::address: accept only the canonical 25-byte P2PKH
locking script 76 A9 14 hash(20) 88 AC, returning the 20-byte hash. -/
def Output.address (o : Output) : Except SignatureError (List Nat) :=
  if o.script.length = 25 ∧ o.script.getD 0 0 = 0x76 ∧ o.script.getD 1 0 = 0xA9
      ∧ o.script.getD 2 0 = 0x14 ∧ o.script.getD 23 0 = 0x88 ∧ o.script.getD 24 0 = 0xAC then
    .ok ((o.script.drop 3).take 20)
  else
    .error .invalidScript

/-- Outcome of Transaction::sign_inputs: the mutated transaction on
success, a propagated error, or a panic.  msgErr is the propagated
secp256k1 error of Message::from_slice on a hash that is not 32 bytes. -/
inductive SignOutcome
  | ok (t : Transaction)
  | err (e : SignatureError)
  | msgErr
  | panicked
deriving DecidableEq

/-- Outcome of Transaction::verify: success, a propagated SignatureError,
a propagated secp256k1 error (DER parse, pubkey parse, message length or
signature verification), or a Rust panic from slicing script_sig out of
bounds. -/
inductive VerifyOutcome
  | ok
  | err (e : SignatureError)
  | cryptoErr
  | panicked
deriving DecidableEq

section Crypto

variable {SK PK Sig : Type}
variable (dsha256 : List Nat → List Nat)
variable (ecdsaSign : List Nat → SK → Sig)
variable (serializeDer : Sig → List Nat)
variable (fromDer : List Nat → Option Sig)
variable (serializePubkey : PK → List Nat)
variable (pubkeyFromSlice : List Nat → Option PK)
variable (ecdsaVerify : Sig → List Nat → PK → Bool)

/-- The loop body of Transaction::sign_inputs from src/wallet/src/sending.rs,
starting at input i: look up the previous output, compute the FORKID
preimage hash with the default SIGHASH 0x41, look up the key pair for the
P2PKH hash of the previous locking script, sign, and write the canonical
script_sig varint(len der + 1), DER signature, 0x41, 0x21, compressed
pubkey into the input, then continue with the next input.  previous_outputs
and address_keys are the two HashMap arguments, modelled as partial maps. -/
def signLoop (prev : List Nat × Nat → Option Output)
    (keys : List Nat → Option (SK × PK)) (t : Transaction) (i : Nat) : SignOutcome :=
  if h : i < t.inputs.length then
    let input := t.inputs.get ⟨i, h⟩
    match prev (input.tx_hash, input.index) with
    | none => .err (.missingInput input.tx_hash input.index)
    | some prevOut =>
      match t.hash_fork dsha256 i prevOut.script 0x41 prevOut.amount with
      | .panicked => .panicked
      | .err e => .err e
      | .ok hash =>
        match prevOut.address with
        | .error e => .err e
        | .ok addr =>
          match keys addr with
          | none => .err .missingKey
          | some (sk, pk) =>
            if hash.length = 32 then
              let der := serializeDer (ecdsaSign hash sk)
              let sigScript := encode_compact_size (der.length + 1) ++ der
                ++ [0x41, 0x21] ++ serializePubkey pk
              signLoop prev keys
                { t with inputs := t.inputs.set i { input with script_sig := sigScript } } (i + 1)
            else .msgErr
  else .ok t
termination_by t.inputs.length - i
decreasing_by simp; omega

/-- Model of Transaction::sign_inputs: run the signing loop over all
inputs in order. -/
def Transaction.sign_inputs (prev : List Nat × Nat → Option Output)
    (keys : List Nat → Option (SK × PK)) (t : Transaction) : SignOutcome :=
  signLoop dsha256 ecdsaSign serializeDer serializePubkey prev keys t 0

/-- The loop body of Transaction::verify from src/wallet/src/sending.rs,
starting at input i: read the signature length byte, slice the DER
signature, the sighash byte and the pubkey out of script_sig (each slice
panics when out of bounds, exactly as Rust indexing does), look up the
previous output, recompute the preimage hash selected by the sighash
FORKID bit (hash_fork performs that dispatch) and verify the signature. -/
def verifyLoop (prev : List Nat × Nat → Option Output) (t : Transaction) (i : Nat) :
    VerifyOutcome :=
  if h : i < t.inputs.length then
    let input := t.inputs.get ⟨i, h⟩
    let ss := input.script_sig
    if ss.length = 0 then .panicked
    else
      let L := ss.getD 0 0
      if 1 ≤ L ∧ L ≤ ss.length then
        match fromDer ((ss.drop 1).take (L - 1)) with
        | none => .cryptoErr
        | some s =>
          if L + 2 ≤ ss.length then
            match pubkeyFromSlice (ss.drop (L + 2)) with
            | none => .cryptoErr
            | some pk =>
              let v := ss.getD L 0
              match prev (input.tx_hash, input.index) with
              | none => .err (.missingInput input.tx_hash input.index)
              | some out =>
                match t.hash_fork dsha256 i out.script v out.amount with
                | .panicked => .panicked
                | .err e => .err e
                | .ok msg =>
                  if msg.length = 32 then
                    if ecdsaVerify s msg pk then verifyLoop prev t (i + 1)
                    else .cryptoErr
                  else .cryptoErr
          else .panicked
      else .panicked
  else .ok
termination_by t.inputs.length - i

/-- Model of Transaction::verify: run the verification loop over all
inputs in order. -/
def Transaction.verify (prev : List Nat × Nat → Option Output) (t : Transaction) :
    VerifyOutcome :=
  verifyLoop dsha256 fromDer pubkeyFromSlice ecdsaVerify prev t 0

end Crypto


/-- The hash carried by an ok preimage result, used to state what
sign_inputs writes into a script_sig. -/
def hashOf : HashResult → List Nat
  | .ok h => h
  | _ => []

section CryptoSupport

variable {SK PK Sig : Type}

/-- The canonical script_sig assembled by sign_inputs: varint of the DER
length plus one, the DER signature, the sighash byte 0x41, the byte 0x21
and the serialized compressed pubkey. -/
def mkSigScript (ecdsaSign : List Nat → SK → Sig) (serializeDer : Sig → List Nat)
    (serializePubkey : PK → List Nat) (hash : List Nat) (sk : SK) (pk : PK) : List Nat :=
  let der := serializeDer (ecdsaSign hash sk)
  encode_compact_size (der.length + 1) ++ der ++ [0x41, 0x21] ++ serializePubkey pk

/-- An input sign_inputs can handle: its outpoint is in the
previous-output map, the previous locking script is canonical P2PKH, and
the script hash is a key of the address-key map. -/
def Signable (prev : List Nat × Nat → Option Output)
    (keys : List Nat → Option (SK × PK)) (inp : Input) : Prop :=
  ∃ o h sk pk, prev (inp.tx_hash, inp.index) = some o
    ∧ o.address = .ok h ∧ keys h = some (sk, pk)

end CryptoSupport

/-- Reads k bytes off the front of a byte list, as Vec::drain(0..k) or a
slice of the first k bytes does; fewer than k bytes is a Rust panic,
modelled as none. -/
def readBytesN (k : Nat) (l : List Nat) : Option (List Nat × List Nat) :=
  if k ≤ l.length then some (l.take k, l.drop k) else none

/-- Model of read_var_int in src/wallet/src/sending.rs: remove the first
byte; 0xFD, 0xFE, 0xFF announce a LE u16, u32, u64; any other first byte
is the value itself.  Panics (none) on an empty list or a truncated
payload, as Vec::remove and out-of-bounds slicing do. -/
def read_var_int (l : List Nat) : Option (Nat × List Nat) :=
  match l with
  | [] => none
  | b :: rest =>
    if b = 0xFD then (readBytesN 2 rest).map (fun p => (fromLE p.1, p.2))
    else if b = 0xFE then (readBytesN 4 rest).map (fun p => (fromLE p.1, p.2))
    else if b = 0xFF then (readBytesN 8 rest).map (fun p => (fromLE p.1, p.2))
    else some (b, rest)

/-- One input of the deserializer loop of TryFrom of Vec u8 for
Transaction: 32 tx_hash bytes reversed back, LE32 index, varint-prefixed
script_sig, LE32 sequence.  The none cases propagate panics of the
drains. -/
def parseInput (l : List Nat) : Option (Input × List Nat) :=
  match readBytesN 32 l with
  | none => none
  | some (h32, r1) =>
    match readBytesN 4 r1 with
    | none => none
    | some (i4, r2) =>
      match read_var_int r2 with
      | none => none
      | some (slen, r3) =>
        match readBytesN slen r3 with
        | none => none
        | some (ss, r4) =>
          match readBytesN 4 r4 with
          | none => none
          | some (s4, r5) => some (⟨h32.reverse, fromLE i4, ss, fromLE s4⟩, r5)

/-- One output of the deserializer loop: LE64 amount, varint-prefixed
script. -/
def parseOutput (l : List Nat) : Option (Output × List Nat) :=
  match readBytesN 8 l with
  | none => none
  | some (a8, r1) =>
    match read_var_int r1 with
    | none => none
    | some (slen, r2) =>
      match readBytesN slen r2 with
      | none => none
      | some (s, r3) => some (⟨fromLE a8, s⟩, r3)

/-- Runs a parser a counted number of times, as the two for loops of the
deserializer do. -/
def parseCount {α : Type} (p : List Nat → Option (α × List Nat)) :
    Nat → List Nat → Option (List α × List Nat)
  | 0, l => some ([], l)
  | n + 1, l =>
    match p l with
    | none => none
    | some (a, r) =>
      match parseCount p n r with
      | none => none
      | some (as, r2) => some (a :: as, r2)

/-- Model of TryFrom of Vec u8 for Transaction in src/wallet/src/sending.rs:
LE32 version, counted inputs, counted outputs, LE32 locktime; residual
bytes after locktime are the LeftoverData error, truncation anywhere is a
panic (none). -/
def deserializeTransaction (v : List Nat) : Option (Except (List Nat) Transaction) :=
  match readBytesN 4 v with
  | none => none
  | some (v4, r0) =>
    match read_var_int r0 with
    | none => none
    | some (nIn, r1) =>
      match parseCount parseInput nIn r1 with
      | none => none
      | some (ins, r2) =>
        match read_var_int r2 with
        | none => none
        | some (nOut, r3) =>
          match parseCount parseOutput nOut r3 with
          | none => none
          | some (outs, r4) =>
            match readBytesN 4 r4 with
            | none => none
            | some (l4, r5) =>
              some (if r5 = [] then .ok ⟨fromLE v4, ins, outs, fromLE l4⟩ else .error r5)

/-- Well-formedness of a transaction as Rust types force it: u32 and u64
fields in range and, per the claim, every tx_hash exactly 32 bytes. -/
def WfTransaction (t : Transaction) : Prop :=
  t.version < 2 ^ 32 ∧ t.locktime < 2 ^ 32
    ∧ t.inputs.length < 2 ^ 64 ∧ t.outputs.length < 2 ^ 64
    ∧ (∀ i ∈ t.inputs, i.tx_hash.length = 32 ∧ i.index < 2 ^ 32
        ∧ i.sequence < 2 ^ 32 ∧ i.script_sig.length < 2 ^ 64)
    ∧ (∀ o ∈ t.outputs, o.amount < 2 ^ 64 ∧ o.script.length < 2 ^ 64)

/-- Model of the RichOutput record of src/wallet/src/transactions.rs; the
hex tx_hash string is modelled by its decoded bytes. -/
structure RichOutput where
  tx_pos : Nat
  tx_hash : List Nat
  amount : Nat
  address : List Nat
deriving DecidableEq

/-- The input built from a scanned unspent output by send_to_address:
Input::new(tx_hash, tx_pos) hex-decodes the hash and leaves script_sig
empty with sequence 0xFFFFFFFF. -/
def RichOutput.toInput (u : RichOutput) : Input :=
  Input.new_decoded u.tx_hash u.tx_pos

/-- Coin-selection failures surfaced by send_to_address in
src/wallet/src/active.rs, with their quantitative payloads. -/
inductive SendError
  | insufficientBalance (missing : Nat)
  | insufficientForFee (required : Nat)
deriving DecidableEq

/-- The first while loop of send_to_address: move unspent outputs in list
order into the inputs, accumulating output_sum, while output_sum is below
the target amount and outputs remain. -/
def selectLoop (amount : Nat) : List RichOutput → Nat → Transaction →
    Transaction × Nat × List RichOutput
  | [], osum, t => (t, osum, [])
  | u :: rest, osum, t =>
    if osum < amount then selectLoop amount rest (osum + u.amount) (t.add_input u.toInput)
    else (t, osum, u :: rest)

/-- The second while loop of send_to_address: keep adding inputs while the
accumulated surplus is below the current suggested fee, recomputing the
fee after each addition. -/
def feeLoop (amount : Nat) : List RichOutput → Nat → Transaction →
    Transaction × Nat × List RichOutput
  | [], osum, t => (t, osum, [])
  | u :: rest, osum, t =>
    if osum - amount < t.suggested_fee then
      feeLoop amount rest (osum + u.amount) (t.add_input u.toInput)
    else (t, osum, u :: rest)

/-- The coin-selection core of send_to_address in src/wallet/src/active.rs:
start from the default transaction with the destination output appended,
run the two accumulation loops, and surface InsufficientBalance with the
shortfall or InsufficientForFee with amount plus fee; on success return
the transaction, the accumulated sum and the unused outputs (the change
output, signing and publishing happen after this point and only on
success). -/
def sendSelect (amount : Nat) (dest : Output) (utxos : List RichOutput) :
    Except SendError (Transaction × Nat × List RichOutput) :=
  let t0 := Transaction.default.add_output dest
  let r1 := selectLoop amount utxos 0 t0
  if amount > r1.2.1 then .error (.insufficientBalance (amount - r1.2.1))
  else
    let r2 := feeLoop amount r1.2.2 r1.2.1 r1.1
    if r2.2.1 - amount < r2.1.suggested_fee then
      .error (.insufficientForFee (amount + r2.1.suggested_fee))
    else .ok r2

/-- Sum of the amounts of a list of unspent outputs. -/
def totalAmount (us : List RichOutput) : Nat := (us.map RichOutput.amount).sum

/-- Model of last_tx_address in src/wallet/src/transactions.rs: the index
of the first address of the chunk with an empty history, that is the
count of leading used addresses, the whole chunk length (20) when all are
used.  used gives, for a derivation index, whether the oracle reports a
non-empty history; the chunk is modelled in derivation order. -/
def countLeadingUsed (used : Nat → Bool) : Nat → Nat → Nat
  | _, 0 => 0
  | start, fuel + 1 => if used start then 1 + countLeadingUsed used (start + 1) fuel else 0

/-- Outcome of one run of the fetch_used_data scan loop: the derivation
index of the chosen next_address, a Rust panic from indexing the 20-entry
batch out of bounds, or exhausted fuel (the loop is not known to
terminate, so it is modelled with explicit fuel). -/
inductive FetchOutcome
  | next (globalIndex : Nat)
  | panicked
  | fuelOut
deriving DecidableEq

/-- Model of the loop of fetch_used_data in src/wallet/src/transactions.rs:
each pass derives the 20 addresses last_index .. last_index+19, adds the
count of leading used addresses to last_index, and stops when last_index
is 0 or not a multiple of 20, reading next_address from the current batch
at position last_index + 1 — a panic when that position is at or past 20.
The HashMap key iteration order of the source is modelled as derivation
order; the divergences proved below arise under every order. -/
def fetchLoop (used : Nat → Bool) : Nat → Nat → FetchOutcome
  | 0, _ => .fuelOut
  | fuel + 1, lastIndex =>
    let k := countLeadingUsed used lastIndex 20
    let li := lastIndex + k
    if li = 0 ∨ li % 20 ≠ 0 then
      if li + 1 < 20 then .next (lastIndex + (li + 1)) else .panicked
    else fetchLoop used fuel li

/-- Model of the RateLimiter struct of src/wallet/src/ratelimit.rs.
Timestamps are milliseconds; the f64 arithmetic of the source is modelled
with exact rational arithmetic. -/
structure RateLimiter where
  capacity : Nat
  tokens : Nat
  last_update : ℚ
deriving DecidableEq

/-- Model of RateLimiter::update_tokens: add floor of elapsed seconds
times capacity (clamped at zero for a non-monotone clock, as the f64 to
u32 cast saturates), cap at capacity, and reset last_update to now on
every call. -/
def RateLimiter.update_tokens (rl : RateLimiter) (now : ℚ) : RateLimiter :=
  let tokensToAdd := (((now - rl.last_update) / 1000) * rl.capacity).floor.toNat
  { rl with tokens := min (rl.tokens + tokensToAdd) rl.capacity, last_update := now }

/-- The waiting loop of RateLimiter::take, observed at a given list of
wakeup timestamps: each pass of the while loop calls update_tokens once.
The loop exits as soon as tokens is nonzero; runs that exhaust the list
while still empty are the runs in which take has not yet acquired a
token. -/
def pollRun (rl : RateLimiter) : List ℚ → RateLimiter
  | [] => rl
  | tNow :: rest => if rl.tokens = 0 then pollRun (rl.update_tokens tNow) rest else rl

/-- The secp256k1 group order n. -/
def secpOrder : Nat :=
  0xFFFFFFFFFFFFFFFFFFFFFFFFFFFFFFFEBAAEDCE6AF48A03BBFD25E8CD0364141

/-- Hardened-derivation offset from src/wallet/src/bip32.rs. -/
def HARDENED_INDEX : Nat := 0x80000000

/-- Model of the XPrv struct of src/wallet/src/bip32.rs.  The 32 key
bytes are modelled by their big-endian scalar value. -/
structure XPrv where
  depth : Nat
  child_number : Nat
  parent_fingerprint : List Nat
  key : Nat
  chain_code : List Nat
deriving DecidableEq

section Bip32

variable (hmacSha512 : List Nat → List Nat → List Nat)
variable (serializePoint : Nat → List Nat)
variable (sha256 : List Nat → List Nat)
variable (ripemd160 : List Nat → List Nat)

/-- Model of XPrv::derive from src/wallet/src/bip32.rs.  hmacSha512 takes
the key then the message; serializePoint gives the 33-byte compressed
public point of a secret scalar; sha256 and ripemd160 feed the parent
fingerprint.  All four are entry points of external crates.  Errors, in
source order: SecretKey::from_slice on the parent key, from_slice on the
left half of the HMAC output (zero or at least the group order), add_tweak
(zero result), and the chain-code conversion. -/
def XPrv.derive (x : XPrv) (index : Nat) : Except Unit XPrv :=
  if x.key = 0 ∨ secpOrder ≤ x.key then .error ()
  else
    let data :=
      if HARDENED_INDEX ≤ index then 0 :: toBE 32 x.key ++ toBE 4 index
      else serializePoint x.key ++ toBE 4 index
    let I := hmacSha512 x.chain_code data
    let iLeft := fromBE (I.take 32)
    if (I.take 32).length ≠ 32 ∨ iLeft = 0 ∨ secpOrder ≤ iLeft then .error ()
    else
      let child := (iLeft + x.key) % secpOrder
      if child = 0 then .error ()
      else if (I.drop 32).length ≠ 32 then .error ()
      else .ok { depth := x.depth + 1, child_number := index,
                 parent_fingerprint := (ripemd160 (sha256 (serializePoint x.key))).take 4,
                 key := child, chain_code := I.drop 32 }

end Bip32

/-- ASCII codes used by the derivation-path grammar. -/
def mChar : Nat := 109

/-- ASCII code of the path separator slash. -/
def slashChar : Nat := 47

/-- ASCII code of the hardening apostrophe. -/
def aposChar : Nat := 39

/-- ASCII code of the plus sign accepted by u32 parsing in Rust. -/
def plusChar : Nat := 43

/-- ASCII decimal digit test, the model of the regex class of digits
(restricted to ASCII). -/
def isDigitB (c : Nat) : Bool := 48 ≤ c && c ≤ 57

mutual

/-- State of the path matcher inside the digits of a component: accepts
more digits, an optional apostrophe, the start of a further component, or
the end of the string. -/
def matchComp : List Nat → Bool
  | [] => true
  | c :: rest =>
    if isDigitB c then matchComp rest
    else if c = aposChar then matchHard rest
    else if c = slashChar then matchGroup rest
    else false

/-- State of the path matcher right after a hardening apostrophe: accepts
the end of the string or the start of a further component. -/
def matchHard : List Nat → Bool
  | [] => true
  | c :: rest => if c = slashChar then matchGroup rest else false

/-- State of the path matcher right after a slash: requires at least one
digit. -/
def matchGroup : List Nat → Bool
  | [] => false
  | c :: rest => isDigitB c && matchComp rest

end

/-- Model of the anchored regex accepting derivation paths in
DerivePath::parse_path of src/wallet/src/bip32.rs: the letter m followed
by one or more groups of a slash, one or more digits and an optional
apostrophe. -/
def matchesPath (s : List Nat) : Bool :=
  match s with
  | c0 :: c1 :: rest => c0 == mChar && c1 == slashChar && matchGroup rest
  | _ => false

/-- Model of str::split on the slash character: splits the string into
segments between separators, keeping empty segments. -/
def splitSlash : List Nat → List (List Nat)
  | [] => [[]]
  | c :: rest =>
    let r := splitSlash rest
    if c = slashChar then [] :: r
    else (c :: r.headD []) :: r.tail

/-- Decimal value of a digit string. -/
def digitsVal (ds : List Nat) : Nat := ds.foldl (fun acc c => 10 * acc + (c - 48)) 0

/-- Model of str::parse::<u32>: an optional leading plus sign, then one or
more decimal digits whose value fits in a u32. -/
def parseU32 (cs : List Nat) : Option Nat :=
  let ds := match cs with
    | c :: t => if c = plusChar then t else cs
    | [] => cs
  if ds ≠ [] ∧ (∀ c ∈ ds, isDigitB c) ∧ digitsVal ds < 2 ^ 32 then some (digitsVal ds)
  else none

/-- Model of str::strip_suffix with the apostrophe: the string without
its final apostrophe when it has one. -/
def stripApos (cs : List Nat) : Option (List Nat) :=
  if cs.getLast? = some aposChar then some cs.dropLast else none

/-- Value of one path component in DerivePath::parse_path: hardened
components add HARDENED_INDEX, wrapping modulo two to the 32 as the u32
addition of the source does in release builds; a component whose numeral
does not parse as u32 yields none and is dropped by filter_map. -/
def compValue (p : List Nat) : Option Nat :=
  match stripApos p with
  | some value => (parseU32 value).map (fun v => (HARDENED_INDEX + v) % 2 ^ 32)
  | none => parseU32 p

/-- Model of DerivePath::parse_path from src/wallet/src/bip32.rs: reject
strings the regex refuses, otherwise split on slashes, skip the leading m
and keep the components whose numeral parses as u32. -/
def parse_path (s : List Nat) : Except Unit (List Nat) :=
  if matchesPath s then .ok (((splitSlash s).drop 1).filterMap compValue)
  else .error ()

section Bip32Path

variable (hmacSha512 : List Nat → List Nat → List Nat)
variable (serializePoint : Nat → List Nat)
variable (sha256 : List Nat → List Nat)
variable (ripemd160 : List Nat → List Nat)

/-- Model of DerivePath::derive_path for XPrv: parse the path, then
derive the first index from the parsed list and fold derive over the
rest.  Indexing path at zero on an empty parsed list is a Rust panic,
modelled as none. -/
def XPrv.derive_path (x : XPrv) (s : List Nat) : Option (Except Unit XPrv) :=
  match parse_path s with
  | .error () => some (.error ())
  | .ok [] => none
  | .ok (i :: rest) =>
    some (rest.foldl (fun acc j => acc.bind (fun k =>
      k.derive hmacSha512 serializePoint sha256 ripemd160 j))
      (x.derive hmacSha512 serializePoint sha256 ripemd160 i))

end Bip32Path


/-- Claim-side view of one path component: its digit string and whether
it carries a hardening apostrophe. -/
def groupBytes (p : List Nat × Bool) : List Nat :=
  slashChar :: p.1 ++ (if p.2 then [aposChar] else [])

/-- The bytes of a component after its slash. -/
def compBody (p : List Nat × Bool) : List Nat :=
  p.1 ++ (if p.2 then [aposChar] else [])

/-- Well-formed component list: every digit string is non-empty and all
its characters are decimal digits. -/
def WfComps (comps : List (List Nat × Bool)) : Prop :=
  ∀ p ∈ comps, p.1 ≠ [] ∧ ∀ c ∈ p.1, isDigitB c = true

/-- Decomposition of a path string per the claim grammar: the letter m
followed by one or more slash-digits-optional-apostrophe groups. -/
def IsPathDecomp (s : List Nat) (comps : List (List Nat × Bool)) : Prop :=
  comps ≠ [] ∧ WfComps comps ∧ s = mChar :: (comps.map groupBytes).flatten

/-- Claim-side value of a component: the decimal value of its digits when
it fits in a u32 (dropped otherwise), plus two to the 31 wrapping modulo
two to the 32 when hardened. -/
def compSpecValue (p : List Nat × Bool) : Option Nat :=
  if digitsVal p.1 < 2 ^ 32 then
    some (if p.2 then (HARDENED_INDEX + digitsVal p.1) % 2 ^ 32 else digitsVal p.1)
  else none

/-- Byte list of the ASCII codes of a string, to state concrete path
inputs readably. -/
def pathChars (s : String) : List Nat := s.toList.map Char.toNat

/-- Wakeup timestamps of the take polling loop: k ticks spaced exactly
100 milliseconds apart after a start time. -/
def hundredTicks : ℚ → Nat → List ℚ
  | _, 0 => []
  | t, k + 1 => (t + 100) :: hundredTicks (t + 100) k

/-! Theorems. -/

theorem baseHasSingle_iff (v : Nat) : baseHasSingle v = true ↔ sigBase v = 3 := by
  simp [baseHasSingle]

theorem baseHasNone_iff (v : Nat) : baseHasNone v = true ↔ sigBase v = 2 := by
  simp [baseHasNone]

theorem hasForkId_iff (v : Nat) : hasForkId v = true ↔ Nat.testBit v 6 = true := by
  simp only [hasForkId, beq_iff_eq]
  change v &&& 64 = 64 ↔ _
  rw [show (64 : Nat) = 2 ^ 6 by norm_num, Nat.and_two_pow]
  rcases Nat.testBit v 6 with _ | _ <;> simp

theorem hasAnyoneCanPay_iff (v : Nat) : hasAnyoneCanPay v = true ↔ Nat.testBit v 7 = true := by
  simp only [hasAnyoneCanPay, beq_iff_eq]
  change v &&& 128 = 128 ↔ _
  rw [show (128 : Nat) = 2 ^ 7 by norm_num, Nat.and_two_pow]
  rcases Nat.testBit v 7 with _ | _ <;> simp

/-- C2: for every transaction, input index i below the number of inputs,
previous locking script, previous amount, and SIGHASH value with bit 0x40
set, hash_fork returns dsha256 of the concatenation of the LE32 version,
hashPrevouts (dsha256 of every input's byte-reversed tx_hash followed by
its LE32 index, or 32 zero bytes under ANYONECANPAY), hashSequence
(dsha256 of every input's LE32 sequence, or 32 zero bytes under
ANYONECANPAY or base SINGLE or NONE), input i's byte-reversed tx_hash and
LE32 index, the varint-length-prefixed script, the LE64 amount, input i's
LE32 sequence, hashOutputs (dsha256 of serialized output i when base is
SINGLE and i is below the number of outputs, dsha256 of all serialized
outputs when base is neither SINGLE nor NONE, else 32 zero bytes), the
LE32 locktime and the LE32 of the full sighash value. -/
theorem c2_hash_fork_preimage (dsha256 : List Nat → List Nat) (t : Transaction)
    (i : Nat) (script : List Nat) (amount v : Nat)
    (hi : i < t.inputs.length) (hfork : Nat.testBit v 6 = true) :
    t.hash_fork dsha256 i script v amount = .ok (dsha256 (
      toLE 4 t.version
      ++ (if Nat.testBit v 7 = true then List.replicate 32 0
          else dsha256 ((t.inputs.map
            (fun inp => inp.tx_hash.reverse ++ toLE 4 inp.index)).flatten))
      ++ (if Nat.testBit v 7 = true ∨ sigBase v = 3 ∨ sigBase v = 2 then List.replicate 32 0
          else dsha256 ((t.inputs.map (fun inp => toLE 4 inp.sequence)).flatten))
      ++ (t.inputs.get ⟨i, hi⟩).tx_hash.reverse ++ toLE 4 (t.inputs.get ⟨i, hi⟩).index
      ++ encode_compact_size script.length ++ script
      ++ toLE 8 amount ++ toLE 4 (t.inputs.get ⟨i, hi⟩).sequence
      ++ (if sigBase v = 3 ∧ i < t.outputs.length then
            dsha256 (serializeOutput (t.outputs.getD i ⟨0, []⟩))
          else if ¬ sigBase v = 3 ∧ ¬ sigBase v = 2 then
            dsha256 ((t.outputs.map serializeOutput).flatten)
          else List.replicate 32 0)
      ++ toLE 4 t.locktime ++ toLE 4 v)) := by
  have hf : hasForkId v = true := (hasForkId_iff v).mpr hfork
  have h7 : (Nat.testBit v 7 = true) ↔ (hasAnyoneCanPay v = true) := (hasAnyoneCanPay_iff v).symm
  have h3 : (sigBase v = 3) ↔ (baseHasSingle v = true) := (baseHasSingle_iff v).symm
  have h2 : (sigBase v = 2) ↔ (baseHasNone v = true) := (baseHasNone_iff v).symm
  unfold Transaction.hash_fork
  rw [hf]
  simp only [Bool.true_eq_false, if_false, dif_pos hi]
  simp only [h7, h3, h2, Bool.or_eq_true, Bool.and_eq_true, Bool.not_eq_true,
    Bool.not_eq_true', decide_eq_true_eq, or_assoc]

/-- Witness for C2 at a concrete one-input transaction, SIGHASH 0x41. -/
theorem c2_hash_fork_preimage_witness :
    Transaction.hash_fork (fun _ => List.replicate 32 7)
      { version := 1, locktime := 0, outputs := [⟨9, [0x51]⟩],
        inputs := [{ tx_hash := List.replicate 32 2, index := 0,
                     script_sig := [], sequence := 0xFFFFFFFF }] }
      0 [0x51] 0x41 9 = .ok (List.replicate 32 7) := by
  rw [c2_hash_fork_preimage (fun _ => List.replicate 32 7)
    { version := 1, locktime := 0, outputs := [⟨9, [0x51]⟩],
      inputs := [{ tx_hash := List.replicate 32 2, index := 0,
                   script_sig := [], sequence := 0xFFFFFFFF }] }
    0 [0x51] 9 0x41 (by decide) (by decide)]

theorem cloneInputs_enumFrom (v idx : Nat) (s : List Nat) (l : List Input) : ∀ k : Nat,
    cloneInputs v idx s k l = (l.enumFrom k).map (fun p =>
      if p.1 = idx then { p.2 with script_sig := s }
      else { p.2 with
              script_sig := []
              sequence := if baseHasSingle v || baseHasNone v then 0 else p.2.sequence }) := by
  induction l with
  | nil => intro k; rfl
  | cons inp rest ih => intro k; simp only [cloneInputs, List.enumFrom, List.map_cons, ih]

theorem blankOutputs_enumFrom (idx : Nat) (l : List Output) : ∀ k : Nat,
    blankOutputs idx k l =
      (l.enumFrom k).map (fun p => if p.1 = idx then p.2 else ⟨u64MAX, []⟩) := by
  induction l with
  | nil => intro k; rfl
  | cons o rest ih => intro k; simp only [blankOutputs, List.enumFrom, List.map_cons, ih]

/-- C3: for every transaction, input index i, previous locking script and
SIGHASH value, hash_original equals dsha256 of the serialized modified
clone followed by the LE32 sighash value, where the clone clears every
other input's script_sig, sets every other input's sequence to 0 when
base is SINGLE or NONE, sets input i's script_sig to the given script
with all OP_CODESEPARATOR (0xAB) bytes removed, keeps only input i when
ANYONECANPAY (bit 0x80), drops all outputs when base is NONE, and under
base SINGLE truncates the outputs to length i+1 replacing every output
before i by amount u64MAX with an empty script; it fails with
InputOutOfBounds exactly when i is at or past the number of inputs, or
base is SINGLE and i is at or past the number of outputs. -/
theorem c3_hash_original_clone (dsha256 : List Nat → List Nat) (t : Transaction)
    (i : Nat) (script : List Nat) (v : Nat) :
    t.hash_original dsha256 i script v =
      if t.inputs.length ≤ i ∨ (sigBase v = 3 ∧ t.outputs.length ≤ i) then
        .error (.inputOutOfBounds i t.inputs.length)
      else
        .ok (dsha256 (serializeTransaction
          { version := t.version
            inputs :=
              if Nat.testBit v 7 = true then
                [{ t.inputs.getD i ⟨[], 0, [], 0⟩ with
                    script_sig := script.filter (· ≠ OP_CODESEPARATOR) }]
              else
                t.inputs.enum.map (fun p =>
                  if p.1 = i then
                    { p.2 with script_sig := script.filter (· ≠ OP_CODESEPARATOR) }
                  else
                    { p.2 with
                      script_sig := []
                      sequence := if sigBase v = 3 ∨ sigBase v = 2 then 0 else p.2.sequence })
            outputs :=
              if sigBase v = 2 then []
              else if sigBase v = 3 then
                (t.outputs.take (i + 1)).enum.map
                  (fun p => if p.1 = i then p.2 else ⟨u64MAX, []⟩)
              else t.outputs
            locktime := t.locktime } ++ toLE 4 v)) := by
  have h7 : (Nat.testBit v 7 = true) ↔ (hasAnyoneCanPay v = true) := (hasAnyoneCanPay_iff v).symm
  have h3 : (sigBase v = 3) ↔ (baseHasSingle v = true) := (baseHasSingle_iff v).symm
  have h2 : (sigBase v = 2) ↔ (baseHasNone v = true) := (baseHasNone_iff v).symm
  unfold Transaction.hash_original Transaction.has_invalid_flag
  simp only [cloneInputs_enumFrom, blankOutputs_enumFrom, List.enum, Bool.or_eq_true,
    Bool.and_eq_true, decide_eq_true_eq, h7, h3, h2, Bool.or_eq_true]

/-- Witness for C3 on a concrete two-input transaction under base SINGLE
with ANYONECANPAY, index 1. -/
theorem c3_hash_original_clone_witness :
    Transaction.hash_original List.reverse
      { version := 2, locktime := 7,
        inputs := [{ tx_hash := [5], index := 0, script_sig := [9], sequence := 11 },
                   { tx_hash := [6], index := 1, script_sig := [8], sequence := 12 }],
        outputs := [⟨3, [1]⟩, ⟨4, [2]⟩] }
      1 [0x51, 0xAB, 0x52] 0x83 =
      .ok (List.reverse (serializeTransaction
        { version := 2,
          inputs := [{ tx_hash := [6], index := 1,
                       script_sig := [0x51, 0x52], sequence := 12 }],
          outputs := [⟨u64MAX, []⟩, ⟨4, [2]⟩],
          locktime := 7 } ++ toLE 4 0x83)) := by
  rw [c3_hash_original_clone List.reverse
    { version := 2, locktime := 7,
      inputs := [{ tx_hash := [5], index := 0, script_sig := [9], sequence := 11 },
                 { tx_hash := [6], index := 1, script_sig := [8], sequence := 12 }],
      outputs := [⟨3, [1]⟩, ⟨4, [2]⟩] }
    1 [0x51, 0xAB, 0x52] 0x83]
  rw [if_neg (by decide)]
  congr 1

/-- C4 (code evaluated at the failing input): with an oracle under which
the whole first batch of 20 addresses is used and exactly the first
address of the second batch is used (history non-empty for derivation
indices up to 20), the claimed behavior is to terminate after the second
batch, whose leading-used count is 1, with next unused address
batch[last_index mod 20 + 1] = batch[2]; the code instead reads
next_address from the 20-entry batch at absolute position
last_index + 1 = 22, a Rust panic, for every fuel bound. -/
theorem c4_gap_limit_scan_panics (fuel : Nat) :
    fetchLoop (fun i => decide (i < 21)) (fuel + 2) 0 = .panicked := by
  have h1 : countLeadingUsed (fun i => decide (i < 21)) 0 20 = 20 := by decide
  have h2 : countLeadingUsed (fun i => decide (i < 21)) 20 20 = 1 := by decide
  have e1 : fetchLoop (fun i => decide (i < 21)) (fuel + 2) 0
      = fetchLoop (fun i => decide (i < 21)) (fuel + 1) 20 := by
    simp [fetchLoop, h1]
  rw [e1]
  simp [fetchLoop, h2]

/-- C9: Transaction::verify is not total in the script_sig: on a concrete
transaction whose single input has an empty script_sig (never signed) and
whose outpoint is present in the previous-outputs map with a canonical
P2PKH locking script, verify panics on the script_sig indexing before any
cryptographic call, for every choice of the secp256k1 entry points, so it
neither succeeds nor returns an error. -/
theorem c9_verify_panics_on_empty_script_sig (Sig PK : Type)
    (dsha256 : List Nat → List Nat)
    (fromDer : List Nat → Option Sig) (pkFromSlice : List Nat → Option PK)
    (ecdsaVerify : Sig → List Nat → PK → Bool) :
    Transaction.verify dsha256 fromDer pkFromSlice ecdsaVerify
      (fun p => if p = (List.replicate 32 1, 0) then
          some ⟨5000, [0x76, 0xA9, 0x14] ++ List.replicate 20 9 ++ [0x88, 0xAC]⟩
        else none)
      { version := 1, inputs := [Input.new_decoded (List.replicate 32 1) 0],
        outputs := [], locktime := 0 } = .panicked := by
  simp [Transaction.verify, verifyLoop, Input.new_decoded]

theorem floor_toNat_zero_of_lt_one (x : ℚ) (h : x < 1) : x.floor.toNat = 0 := by
  rw [Int.toNat_eq_zero]
  by_contra hc
  push_neg at hc
  have h1 : (1 : ℤ) ≤ Rat.floor x := hc
  have h2 : ((1 : ℤ) : ℚ) ≤ x := Rat.le_floor.mp h1
  push_cast at h2
  linarith

theorem update_tokens_no_gain (rl : RateLimiter) (now : ℚ)
    (h : (now - rl.last_update) * rl.capacity < 1000) :
    (rl.update_tokens now).tokens ≤ rl.tokens := by
  unfold RateLimiter.update_tokens
  have hx : ((now - rl.last_update) / 1000) * rl.capacity < 1 := by
    rw [div_mul_eq_mul_div]
    exact (div_lt_one (by norm_num)).mpr h
  simp only [floor_toNat_zero_of_lt_one _ hx, Nat.add_zero]
  exact min_le_left _ _

theorem pollRun_no_gain (cap : Nat) : ∀ (ts : List ℚ) (rl : RateLimiter),
    rl.capacity = cap →
    List.Chain' (fun a b : ℚ => (b - a) * (cap : ℚ) < 1000) (rl.last_update :: ts) →
    (pollRun rl ts).tokens ≤ rl.tokens := by
  intro ts
  induction ts with
  | nil => intro rl _ _; exact le_rfl
  | cons t rest ih =>
    intro rl hcap hchain
    rw [List.chain'_cons] at hchain
    unfold pollRun
    by_cases h0 : rl.tokens = 0
    · rw [if_pos h0]
      have hle : (rl.update_tokens t).tokens ≤ rl.tokens := by
        apply update_tokens_no_gain
        rw [hcap]
        exact hchain.1
      refine le_trans (ih (rl.update_tokens t) (by simp [RateLimiter.update_tokens, hcap]) ?_) hle
      have : (rl.update_tokens t).last_update = t := rfl
      rw [this]
      exact hchain.2
    · rw [if_neg h0]

theorem hundredTicks_chain (cap : Nat) (hcap : cap ≤ 9) : ∀ (k : Nat) (t : ℚ),
    List.Chain' (fun a b : ℚ => (b - a) * (cap : ℚ) < 1000) (t :: hundredTicks t k) := by
  intro k
  induction k with
  | zero => intro t; simp [hundredTicks]
  | succ k ih =>
    intro t
    rw [show hundredTicks t (k + 1) = (t + 100) :: hundredTicks (t + 100) k from rfl,
      List.chain'_cons]
    constructor
    · have : ((t + 100) - t) * cap = 100 * cap := by ring
      rw [this]
      have : (cap : ℚ) ≤ 9 := by exact_mod_cast hcap
      linarith
    · exact ih (t + 100)

/-- C10: update_tokens resets last_update to the inspection timestamp on
every call, even when the computed token gain is zero; hence across any
inspection sequence in which each elapsed interval times capacity stays
below 1000 milliseconds the token count never increases, and in
particular with the 100 millisecond polling interval of take and any
capacity at most 9, polling an empty bucket leaves it empty forever, so
take never acquires a token.  Modelled with exact rational arithmetic in
place of f64. -/
theorem c10_rate_limiter_starvation :
    (∀ (rl : RateLimiter) (now : ℚ), (rl.update_tokens now).last_update = now)
    ∧ (∀ (rl : RateLimiter) (ts : List ℚ),
        List.Chain' (fun a b : ℚ => (b - a) * (rl.capacity : ℚ) < 1000) (rl.last_update :: ts) →
        (pollRun rl ts).tokens ≤ rl.tokens)
    ∧ (∀ (cap : Nat) (t0 : ℚ) (k : Nat), cap ≤ 9 →
        (pollRun ⟨cap, 0, t0⟩ (hundredTicks t0 k)).tokens = 0) := by
  refine ⟨fun rl now => rfl, fun rl ts h => pollRun_no_gain rl.capacity ts rl rfl h, ?_⟩
  intro cap t0 k hcap
  have h := pollRun_no_gain cap (hundredTicks t0 k) ⟨cap, 0, t0⟩ rfl
    (hundredTicks_chain cap hcap k t0)
  exact Nat.le_zero.mp h

/-- Witness for C10: an empty bucket of capacity 3 polled five times at
100 millisecond intervals still has no token. -/
theorem c10_rate_limiter_starvation_witness :
    (pollRun ⟨3, 0, 0⟩ (hundredTicks 0 5)).tokens = 0 :=
  c10_rate_limiter_starvation.2.2 3 0 5 (by decide)

theorem totalAmount_nil : totalAmount [] = 0 := rfl

theorem totalAmount_cons (u : RichOutput) (us : List RichOutput) :
    totalAmount (u :: us) = u.amount + totalAmount us := by
  simp [totalAmount]

theorem totalAmount_append (a b : List RichOutput) :
    totalAmount (a ++ b) = totalAmount a + totalAmount b := by
  simp [totalAmount]

theorem selectLoop_struct (amount : Nat) : ∀ (us : List RichOutput) (osum : Nat)
    (t : Transaction), ∃ k, k ≤ us.length ∧
      selectLoop amount us osum t =
        ({ t with inputs := t.inputs ++ (us.take k).map RichOutput.toInput },
          osum + totalAmount (us.take k), us.drop k) := by
  intro us
  induction us with
  | nil =>
    intro osum t
    exact ⟨0, by simp [selectLoop, totalAmount]⟩
  | cons u rest ih =>
    intro osum t
    by_cases h : osum < amount
    · obtain ⟨k, hk, he⟩ := ih (osum + u.amount) (t.add_input u.toInput)
      refine ⟨k + 1, Nat.succ_le_succ hk, ?_⟩
      simp only [selectLoop, if_pos h]
      simp only [Transaction.add_input] at he ⊢
      rw [he]
      simp [List.append_assoc, Nat.add_assoc, totalAmount_cons]
    · exact ⟨0, Nat.zero_le _, by simp [selectLoop, if_neg h, totalAmount]⟩

theorem feeLoop_struct (amount : Nat) : ∀ (us : List RichOutput) (osum : Nat)
    (t : Transaction), ∃ k, k ≤ us.length ∧
      feeLoop amount us osum t =
        ({ t with inputs := t.inputs ++ (us.take k).map RichOutput.toInput },
          osum + totalAmount (us.take k), us.drop k) := by
  intro us
  induction us with
  | nil =>
    intro osum t
    exact ⟨0, by simp [feeLoop, totalAmount]⟩
  | cons u rest ih =>
    intro osum t
    by_cases h : osum - amount < t.suggested_fee
    · obtain ⟨k, hk, he⟩ := ih (osum + u.amount) (t.add_input u.toInput)
      refine ⟨k + 1, Nat.succ_le_succ hk, ?_⟩
      simp only [feeLoop, if_pos h]
      simp only [Transaction.add_input] at he ⊢
      rw [he]
      simp [List.append_assoc, Nat.add_assoc, totalAmount_cons]
    · exact ⟨0, Nat.zero_le _, by simp [feeLoop, if_neg h, totalAmount]⟩

theorem selectLoop_sum_lt (amount : Nat) : ∀ (us : List RichOutput) (osum : Nat)
    (t : Transaction), osum + totalAmount us < amount →
      selectLoop amount us osum t =
        ({ t with inputs := t.inputs ++ us.map RichOutput.toInput },
          osum + totalAmount us, []) := by
  intro us
  induction us with
  | nil =>
    intro osum t h
    simp [selectLoop, totalAmount]
  | cons u rest ih =>
    intro osum t h
    rw [totalAmount_cons] at h
    have h0 : osum < amount := by omega
    rw [show selectLoop amount (u :: rest) osum t
        = selectLoop amount rest (osum + u.amount) (t.add_input u.toInput) by
      simp [selectLoop, if_pos h0]]
    rw [ih (osum + u.amount) (t.add_input u.toInput) (by omega)]
    simp [Transaction.add_input, List.append_assoc, Nat.add_assoc, totalAmount_cons]

theorem selectLoop_sum_ge (amount : Nat) : ∀ (us : List RichOutput) (osum : Nat)
    (t : Transaction), amount ≤ osum + totalAmount us →
      amount ≤ (selectLoop amount us osum t).2.1 := by
  intro us
  induction us with
  | nil =>
    intro osum t h
    rw [totalAmount_nil] at h
    simpa [selectLoop] using h
  | cons u rest ih =>
    intro osum t h
    rw [totalAmount_cons] at h
    by_cases h0 : osum < amount
    · rw [show selectLoop amount (u :: rest) osum t
          = selectLoop amount rest (osum + u.amount) (t.add_input u.toInput) by
        simp [selectLoop, if_pos h0]]
      exact ih (osum + u.amount) (t.add_input u.toInput) (by omega)
    · rw [show selectLoop amount (u :: rest) osum t = (t, osum, u :: rest) by
        simp [selectLoop, if_neg h0]]
      show amount ≤ osum
      omega

/-- C6: for every target amount, destination output and UTXO list, the
build moves UTXOs in list order into the transaction inputs accumulating
output_sum until it reaches the amount; it fails reporting the shortfall
amount minus output_sum exactly when the list is exhausted before
output_sum reaches amount (equivalently, exactly when the total of the
list is below amount, the shortfall then being amount minus that total);
otherwise, after the fee loop, it fails reporting amount plus fee exactly
when the final surplus output_sum minus amount is below the suggested fee
of the built transaction; on success the inputs are the prefix of the
UTXO list consumed in order, output_sum is its total, and both the amount
and the fee are covered.  In either failure case the build returns before
the change, signing and publishing steps. -/
theorem c6_coin_selection_errors (amount : Nat) (dest : Output) (utxos : List RichOutput) :
    (∀ s, sendSelect amount dest utxos = .error (.insufficientBalance s) ↔
        totalAmount utxos < amount ∧ s = amount - totalAmount utxos)
    ∧ (∀ r, sendSelect amount dest utxos = .error (.insufficientForFee r) ↔
        amount ≤ totalAmount utxos ∧
        ∃ t2 osum2 rest2,
          feeLoop amount
              (selectLoop amount utxos 0 (Transaction.default.add_output dest)).2.2
              (selectLoop amount utxos 0 (Transaction.default.add_output dest)).2.1
              (selectLoop amount utxos 0 (Transaction.default.add_output dest)).1
            = (t2, osum2, rest2)
          ∧ osum2 - amount < t2.suggested_fee ∧ r = amount + t2.suggested_fee)
    ∧ (∀ t osum rest, sendSelect amount dest utxos = .ok (t, osum, rest) →
        ∃ k, k ≤ utxos.length ∧ t.inputs = (utxos.take k).map RichOutput.toInput
          ∧ t.outputs = [dest] ∧ osum = totalAmount (utxos.take k) ∧ rest = utxos.drop k
          ∧ amount ≤ osum ∧ t.suggested_fee ≤ osum - amount) := by
  by_cases hbal : totalAmount utxos < amount
  · have he1 : selectLoop amount utxos 0 (Transaction.default.add_output dest)
        = ({ Transaction.default.add_output dest with
              inputs := (Transaction.default.add_output dest).inputs
                ++ utxos.map RichOutput.toInput },
            0 + totalAmount utxos, []) :=
      selectLoop_sum_lt amount utxos 0 _ (by omega)
    have hsel : sendSelect amount dest utxos
        = .error (.insufficientBalance (amount - totalAmount utxos)) := by
      simp only [sendSelect]
      rw [he1]
      simp only [Nat.zero_add]
      rw [if_pos (by omega)]
    refine ⟨?_, ?_, ?_⟩
    · intro s
      rw [hsel]
      constructor
      · intro h
        injection h with h
        injection h with h
        exact ⟨hbal, h.symm⟩
      · rintro ⟨_, rfl⟩
        rfl
    · intro r
      rw [hsel]
      constructor
      · intro h
        exact absurd h (by simp)
      · rintro ⟨h, _⟩
        omega
    · intro t osum rest h
      rw [hsel] at h
      exact absurd h (by simp)
  · push_neg at hbal
    have hS1 : amount ≤ (selectLoop amount utxos 0 (Transaction.default.add_output dest)).2.1 :=
      selectLoop_sum_ge amount utxos 0 _ (by omega)
    obtain ⟨t2, osum2, rest2, he2⟩ : ∃ a b c,
        feeLoop amount
            (selectLoop amount utxos 0 (Transaction.default.add_output dest)).2.2
            (selectLoop amount utxos 0 (Transaction.default.add_output dest)).2.1
            (selectLoop amount utxos 0 (Transaction.default.add_output dest)).1
          = (a, b, c) := ⟨_, _, _, rfl⟩
    by_cases hfee : osum2 - amount < t2.suggested_fee
    · have hsel : sendSelect amount dest utxos
          = .error (.insufficientForFee (amount + t2.suggested_fee)) := by
        simp only [sendSelect]
        rw [if_neg (by omega), he2]
        dsimp only
        rw [if_pos hfee]
      refine ⟨?_, ?_, ?_⟩
      · intro s
        rw [hsel]
        constructor
        · intro h
          exact absurd h (by simp)
        · rintro ⟨h, _⟩
          omega
      · intro r
        rw [hsel]
        constructor
        · intro h
          injection h with h
          injection h with h
          exact ⟨hbal, t2, osum2, rest2, he2, hfee, h.symm⟩
        · rintro ⟨_, t2', osum2', rest2', he2', hfee', rfl⟩
          have := he2.symm.trans he2'
          injection this with h1 h2
          injection h2 with h2 h3
          rw [h1]
      · intro t osum rest h
        rw [hsel] at h
        exact absurd h (by simp)
    · have hsel : sendSelect amount dest utxos = .ok (t2, osum2, rest2) := by
        simp only [sendSelect]
        rw [if_neg (by omega), he2]
        dsimp only
        rw [if_neg hfee]
      refine ⟨?_, ?_, ?_⟩
      · intro s
        rw [hsel]
        constructor
        · intro h
          exact absurd h (by simp)
        · rintro ⟨h, _⟩
          omega
      · intro r
        rw [hsel]
        constructor
        · intro h
          exact absurd h (by simp)
        · rintro ⟨_, t2', osum2', rest2', he2', hfee', rfl⟩
          have := he2.symm.trans he2'
          injection this with h1 h2
          injection h2 with h2 h3
          rw [← h1] at hfee'
          rw [← h2] at hfee'
          exact absurd hfee' hfee
      · intro t osum rest h
        rw [hsel] at h
        injection h with h
        injection h with ht h
        injection h with hosum hrest
        subst ht
        subst hosum
        subst hrest
        obtain ⟨k1, hk1, he1⟩ :=
          selectLoop_struct amount utxos 0 (Transaction.default.add_output dest)
        rw [he1] at he2 hS1
        obtain ⟨k2, hk2, he2s⟩ := feeLoop_struct amount (utxos.drop k1)
          (0 + totalAmount (utxos.take k1))
          ({ Transaction.default.add_output dest with
              inputs := (Transaction.default.add_output dest).inputs
                ++ (utxos.take k1).map RichOutput.toInput })
        dsimp only at he2 hS1
        rw [he2s] at he2
        injection he2 with g1 g2
        injection g2 with g2 g3
        rw [List.length_drop] at hk2
        refine ⟨k1 + k2, by omega, ?_, ?_, ?_, ?_, ?_, ?_⟩
        · rw [← g1]
          simp [List.take_add, Transaction.add_output, Transaction.default]
        · rw [← g1]
          simp [Transaction.add_output, Transaction.default]
        · rw [← g2, List.take_add, totalAmount_append]
          omega
        · rw [← g3, List.drop_drop, Nat.add_comm]
        · rw [← g2]
          omega
        · omega


/-- Witness for C6: a single 30-satoshi UTXO cannot cover a 100-satoshi
send; the build fails reporting the 70-satoshi shortfall. -/
theorem c6_coin_selection_errors_witness :
    sendSelect 100 ⟨50, []⟩ [⟨0, [1], 30, [2]⟩] = .error (.insufficientBalance 70) :=
  ((c6_coin_selection_errors 100 ⟨50, []⟩ [⟨0, [1], 30, [2]⟩]).1 70).mpr (by decide)

/-- C7: for every parent XPrv with a valid scalar and every index, derive
computes I as HMAC-SHA512 keyed by the chain code over the compressed
parent public key followed by the big-endian index when the index is
below 2 to the 31, and over a zero byte, the parent key bytes and the
big-endian index otherwise; it returns a child whose scalar is the sum of
the parent scalar and the left half of I modulo the group order and whose
chain code is the right half of I, and fails exactly when the left half
is zero or at least the group order, or the resulting scalar is zero.
The HMAC output is 64 bytes by the contract of the hmac crate. -/
theorem c7_xprv_derive (hmacSha512 : List Nat → List Nat → List Nat)
    (serializePoint : Nat → List Nat) (sha256 ripemd160 : List Nat → List Nat)
    (x : XPrv) (index : Nat)
    (hkey : 0 < x.key ∧ x.key < secpOrder)
    (hlen : ∀ k m, (hmacSha512 k m).length = 64) :
    x.derive hmacSha512 serializePoint sha256 ripemd160 index =
      (if fromBE ((hmacSha512 x.chain_code
            (if 2 ^ 31 ≤ index then 0 :: toBE 32 x.key ++ toBE 4 index
             else serializePoint x.key ++ toBE 4 index)).take 32) = 0
          ∨ secpOrder ≤ fromBE ((hmacSha512 x.chain_code
              (if 2 ^ 31 ≤ index then 0 :: toBE 32 x.key ++ toBE 4 index
               else serializePoint x.key ++ toBE 4 index)).take 32)
          ∨ (x.key + fromBE ((hmacSha512 x.chain_code
              (if 2 ^ 31 ≤ index then 0 :: toBE 32 x.key ++ toBE 4 index
               else serializePoint x.key ++ toBE 4 index)).take 32)) % secpOrder = 0 then
        .error ()
      else
        .ok { depth := x.depth + 1, child_number := index,
              parent_fingerprint := (ripemd160 (sha256 (serializePoint x.key))).take 4,
              key := (x.key + fromBE ((hmacSha512 x.chain_code
                  (if 2 ^ 31 ≤ index then 0 :: toBE 32 x.key ++ toBE 4 index
                   else serializePoint x.key ++ toBE 4 index)).take 32)) % secpOrder,
              chain_code := (hmacSha512 x.chain_code
                  (if 2 ^ 31 ≤ index then 0 :: toBE 32 x.key ++ toBE 4 index
                   else serializePoint x.key ++ toBE 4 index)).drop 32 }) := by
  have hh : HARDENED_INDEX = 2 ^ 31 := by norm_num [HARDENED_INDEX]
  unfold XPrv.derive
  rw [if_neg (by omega), hh]
  set I := hmacSha512 x.chain_code
    (if 2 ^ 31 ≤ index then 0 :: toBE 32 x.key ++ toBE 4 index
     else serializePoint x.key ++ toBE 4 index) with hI
  have hlen64 : I.length = 64 := hlen _ _
  have htake : (I.take 32).length = 32 := by
    rw [List.length_take, hlen64]
    omega
  have hdrop : (I.drop 32).length = 32 := by
    rw [List.length_drop, hlen64]
  set iL := fromBE (I.take 32) with hiL
  by_cases h1 : iL = 0 ∨ secpOrder ≤ iL
  · have ha : (I.take 32).length ≠ 32 ∨ iL = 0 ∨ secpOrder ≤ iL := Or.inr h1
    have hb : iL = 0 ∨ secpOrder ≤ iL ∨ (x.key + iL) % secpOrder = 0 :=
      h1.elim Or.inl (fun h => Or.inr (Or.inl h))
    rw [if_pos ha, if_pos hb]
  · have ha : ¬((I.take 32).length ≠ 32 ∨ iL = 0 ∨ secpOrder ≤ iL) := by
      intro hc
      rcases hc with h | h
      · exact h htake
      · exact h1 h
    rw [if_neg ha]
    by_cases h2 : (iL + x.key) % secpOrder = 0
    · have hb : iL = 0 ∨ secpOrder ≤ iL ∨ (x.key + iL) % secpOrder = 0 := by
        rw [Nat.add_comm x.key iL]
        exact Or.inr (Or.inr h2)
      rw [if_pos h2, if_pos hb]
    · have hc : ¬(I.drop 32).length ≠ 32 := by
        rw [hdrop]
        omega
      have hb : ¬(iL = 0 ∨ secpOrder ≤ iL ∨ (x.key + iL) % secpOrder = 0) := by
        intro hd
        rcases hd with h | h | h
        · exact h1 (Or.inl h)
        · exact h1 (Or.inr h)
        · rw [Nat.add_comm x.key iL] at h
          exact h2 h
      rw [if_neg h2, if_neg hc, if_neg hb, Nat.add_comm iL x.key]


/-- Witness for C7 with a constant 64-byte HMAC whose left half reads as
the scalar 7 and a parent scalar 5: the child scalar is 12. -/
theorem c7_xprv_derive_witness :
    XPrv.derive (fun _ _ => List.replicate 31 0 ++ [7] ++ List.replicate 32 3)
      (fun _ => List.replicate 33 1) id id ⟨0, 0, [], 5, []⟩ 3
      = .ok { depth := 1, child_number := 3,
              parent_fingerprint := [1, 1, 1, 1],
              key := 12, chain_code := List.replicate 32 3 } := by
  rw [c7_xprv_derive (fun _ _ => List.replicate 31 0 ++ [7] ++ List.replicate 32 3)
    (fun _ => List.replicate 33 1) id id ⟨0, 0, [], 5, []⟩ 3
    ⟨by decide, by decide⟩
    (fun _ _ => (by decide : (List.replicate 31 0 ++ [7] ++ List.replicate 32 3).length = 64))]
  decide


theorem matchComp_cons (c : Nat) (rest : List Nat) :
    matchComp (c :: rest) = if isDigitB c then matchComp rest
      else if c = aposChar then matchHard rest
      else if c = slashChar then matchGroup rest else false := rfl

theorem matchHard_cons (c : Nat) (rest : List Nat) :
    matchHard (c :: rest) = if c = slashChar then matchGroup rest else false := rfl

theorem matchGroup_cons (c : Nat) (rest : List Nat) :
    matchGroup (c :: rest) = (isDigitB c && matchComp rest) := rfl

theorem matchComp_slash (rest : List Nat) :
    matchComp (slashChar :: rest) = matchGroup rest := by
  rw [matchComp_cons, if_neg (show ¬ isDigitB slashChar = true by decide),
    if_neg (show ¬ slashChar = aposChar by decide), if_pos rfl]

theorem matchComp_apos (rest : List Nat) :
    matchComp (aposChar :: rest) = matchHard rest := by
  rw [matchComp_cons, if_neg (show ¬ isDigitB aposChar = true by decide), if_pos rfl]

theorem matchHard_slash (rest : List Nat) :
    matchHard (slashChar :: rest) = matchGroup rest := by
  rw [matchHard_cons, if_pos rfl]

theorem matchComp_digits : ∀ ds : List Nat, (∀ c ∈ ds, isDigitB c = true) →
    ∀ rest, matchComp (ds ++ rest) = matchComp rest := by
  intro ds
  induction ds with
  | nil => intro _ rest; rfl
  | cons d ds' ih =>
    intro hds rest
    rw [List.cons_append, matchComp_cons, if_pos (hds d (by simp))]
    exact ih (fun c hc => hds c (by simp [hc])) rest

theorem wfComps_matchers : ∀ comps, WfComps comps →
    matchComp ((comps.map groupBytes).flatten) = true
    ∧ matchHard ((comps.map groupBytes).flatten) = true := by
  intro comps
  induction comps with
  | nil => exact fun _ => ⟨rfl, rfl⟩
  | cons p rest ih =>
    intro hwf
    obtain ⟨hne, hdig⟩ := hwf p (by simp)
    have hrest := ih (fun q hq => hwf q (by simp [hq]))
    obtain ⟨d, ds', hds⟩ : ∃ d ds', p.1 = d :: ds' := by
      cases hcase : p.1 with
      | nil => exact absurd hcase hne
      | cons a b => exact ⟨a, b, rfl⟩
    have hflat : ((p :: rest).map groupBytes).flatten
        = slashChar :: (p.1 ++ ((if p.2 then [aposChar] else [])
            ++ (rest.map groupBytes).flatten)) := by
      simp [groupBytes, List.append_assoc]
    have hgroup : matchGroup (p.1 ++ ((if p.2 then [aposChar] else [])
        ++ (rest.map groupBytes).flatten)) = true := by
      rw [hds, List.cons_append, matchGroup_cons, hdig d (by rw [hds]; simp), Bool.true_and,
        matchComp_digits ds' (fun c hc => hdig c (by rw [hds]; simp [hc]))]
      rcases p.2 with _ | _
      · simp only [Bool.false_eq_true, if_false, List.nil_append]
        exact hrest.1
      · simp only [if_true, List.cons_append, List.nil_append]
        rw [matchComp_apos]
        exact hrest.2
    refine ⟨?_, ?_⟩
    · rw [hflat, matchComp_slash]
      exact hgroup
    · rw [hflat, matchHard_slash]
      exact hgroup


theorem matchers_sound : ∀ n : Nat, ∀ X : List Nat, X.length ≤ n →
    (matchGroup X = true → ∃ comps, comps ≠ [] ∧ WfComps comps
      ∧ slashChar :: X = (comps.map groupBytes).flatten)
    ∧ (matchComp X = true → ∃ ds q T, (∀ c ∈ ds, isDigitB c = true)
        ∧ (q = [] ∨ q = [aposChar])
        ∧ (T = [] ∨ ∃ comps, comps ≠ [] ∧ WfComps comps ∧ T = (comps.map groupBytes).flatten)
        ∧ X = ds ++ q ++ T)
    ∧ (matchHard X = true → X = [] ∨ ∃ comps, comps ≠ [] ∧ WfComps comps
        ∧ X = (comps.map groupBytes).flatten) := by
  intro n
  induction n with
  | zero =>
    intro X hX
    have hXe : X = [] := List.length_eq_zero.mp (Nat.le_zero.mp hX)
    subst hXe
    refine ⟨fun h => absurd h (by decide), ?_, fun _ => Or.inl rfl⟩
    intro _
    exact ⟨[], [], [], by simp, Or.inl rfl, Or.inl rfl, rfl⟩
  | succ n ih =>
    intro X hX
    cases X with
    | nil =>
      refine ⟨fun h => absurd h (by decide), ?_, fun _ => Or.inl rfl⟩
      intro _
      exact ⟨[], [], [], by simp, Or.inl rfl, Or.inl rfl, rfl⟩
    | cons c X' =>
      have hX' : X'.length ≤ n := by
        rw [List.length_cons] at hX
        omega
      obtain ⟨ihP, ihQ, ihR⟩ := ih X' hX'
      refine ⟨?_, ?_, ?_⟩
      · intro h
        rw [matchGroup_cons, Bool.and_eq_true] at h
        obtain ⟨ds, q, T, hdq, hq, hT, hXeq⟩ := ihQ h.2
        have hwf1 : ∀ e ∈ c :: ds, isDigitB e = true := by
          intro e he
          rcases List.mem_cons.mp he with rfl | he2
          · exact h.1
          · exact hdq e he2
        rcases hT with rfl | ⟨comps, hc1, hc2, hc3⟩
        · rcases hq with rfl | rfl
          · refine ⟨[(c :: ds, false)], by simp, ?_, ?_⟩
            · intro p hp
              rw [List.mem_singleton] at hp
              subst hp
              exact ⟨by simp, hwf1⟩
            · simp [groupBytes, hXeq]
          · refine ⟨[(c :: ds, true)], by simp, ?_, ?_⟩
            · intro p hp
              rw [List.mem_singleton] at hp
              subst hp
              exact ⟨by simp, hwf1⟩
            · simp [groupBytes, hXeq]
        · rcases hq with rfl | rfl
          · refine ⟨(c :: ds, false) :: comps, by simp, ?_, ?_⟩
            · intro p hp
              rcases List.mem_cons.mp hp with rfl | hp2
              · exact ⟨by simp, hwf1⟩
              · exact hc2 p hp2
            · simp [groupBytes, hXeq, hc3, List.append_assoc]
          · refine ⟨(c :: ds, true) :: comps, by simp, ?_, ?_⟩
            · intro p hp
              rcases List.mem_cons.mp hp with rfl | hp2
              · exact ⟨by simp, hwf1⟩
              · exact hc2 p hp2
            · simp [groupBytes, hXeq, hc3, List.append_assoc]
      · intro h
        rw [matchComp_cons] at h
        by_cases hd : isDigitB c = true
        · rw [if_pos hd] at h
          obtain ⟨ds, q, T, h1, h2, h3, h4⟩ := ihQ h
          refine ⟨c :: ds, q, T, ?_, h2, h3, by simp [h4, List.append_assoc]⟩
          intro e he
          rcases List.mem_cons.mp he with rfl | he2
          · exact hd
          · exact h1 e he2
        · rw [if_neg hd] at h
          by_cases ha : c = aposChar
          · rw [if_pos ha] at h
            rcases ihR h with rfl | hcc
            · exact ⟨[], [aposChar], [], by simp, Or.inr rfl, Or.inl rfl, by simp [ha]⟩
            · exact ⟨[], [aposChar], X', by simp, Or.inr rfl, Or.inr hcc, by simp [ha]⟩
          · rw [if_neg ha] at h
            by_cases hs : c = slashChar
            · rw [if_pos hs] at h
              obtain ⟨comps, hc1, hc2, hc3⟩ := ihP h
              refine ⟨[], [], c :: X', by simp, Or.inl rfl,
                Or.inr ⟨comps, hc1, hc2, by rw [hs]; exact hc3⟩, by simp⟩
            · rw [if_neg hs] at h
              exact absurd h Bool.false_ne_true
      · intro h
        rw [matchHard_cons] at h
        by_cases hs : c = slashChar
        · rw [if_pos hs] at h
          obtain ⟨comps, hc1, hc2, hc3⟩ := ihP h
          exact Or.inr ⟨comps, hc1, hc2, by rw [hs]; exact hc3⟩
        · rw [if_neg hs] at h
          exact absurd h Bool.false_ne_true


theorem splitSlash_ne_nil : ∀ l : List Nat, splitSlash l ≠ [] := by
  intro l
  cases l with
  | nil => simp [splitSlash]
  | cons c rest =>
    rw [show splitSlash (c :: rest)
        = if c = slashChar then [] :: splitSlash rest
          else (c :: (splitSlash rest).headD []) :: (splitSlash rest).tail from rfl]
    by_cases h : c = slashChar <;> simp [h]

theorem splitSlash_cons (c : Nat) (rest : List Nat) :
    splitSlash (c :: rest)
      = if c = slashChar then [] :: splitSlash rest
        else (c :: (splitSlash rest).headD []) :: (splitSlash rest).tail := rfl

theorem splitSlash_no_slash_append : ∀ (a b : List Nat), (∀ c ∈ a, c ≠ slashChar) →
    splitSlash (a ++ b) = (a ++ (splitSlash b).headD []) :: (splitSlash b).tail := by
  intro a
  induction a with
  | nil =>
    intro b _
    cases hsb : splitSlash b with
    | nil => exact absurd hsb (splitSlash_ne_nil b)
    | cons hd tl => simp [hsb]
  | cons c a' ih =>
    intro b hns
    rw [List.cons_append, splitSlash_cons, if_neg (hns c (by simp)),
      ih b (fun e he => hns e (by simp [he]))]
    simp

theorem compBody_no_slash (p : List Nat × Bool)
    (hp : ∀ c ∈ p.1, isDigitB c = true) : ∀ c ∈ compBody p, c ≠ slashChar := by
  intro c hc
  rcases List.mem_append.mp hc with h | h
  · have hd := hp c h
    simp only [isDigitB, Bool.and_eq_true, decide_eq_true_eq] at hd
    simp only [slashChar]
    omega
  · rcases hb : p.2 with _ | _
    · rw [hb] at h
      simp at h
    · rw [hb] at h
      simp at h
      subst h
      decide

theorem splitSlash_flatten : ∀ comps : List (List Nat × Bool), WfComps comps →
    comps ≠ [] →
    splitSlash ((comps.map groupBytes).flatten) = [] :: comps.map compBody := by
  intro comps
  induction comps with
  | nil => intro _ h; exact absurd rfl h
  | cons p rest ih =>
    intro hwf _
    have hbody : ∀ c ∈ compBody p, c ≠ slashChar :=
      compBody_no_slash p (hwf p (by simp)).2
    have hflat : ((p :: rest).map groupBytes).flatten
        = slashChar :: (compBody p ++ (rest.map groupBytes).flatten) := by
      simp [groupBytes, compBody, List.append_assoc]
    rw [hflat, splitSlash_cons, if_pos rfl,
      splitSlash_no_slash_append (compBody p) _ hbody]
    cases rest with
    | nil => simp [splitSlash]
    | cons q rest' =>
      rw [ih (fun e he => hwf e (by simp [he])) (by simp)]
      simp

theorem parseU32_digits (ds : List Nat) (hne : ds ≠ [])
    (hdig : ∀ c ∈ ds, isDigitB c = true) :
    parseU32 ds = if digitsVal ds < 2 ^ 32 then some (digitsVal ds) else none := by
  obtain ⟨d, t, rfl⟩ : ∃ d t, ds = d :: t := by
    cases h : ds with
    | nil => exact absurd h hne
    | cons a b => exact ⟨a, b, rfl⟩
  have hd := hdig d (by simp)
  simp only [isDigitB, Bool.and_eq_true, decide_eq_true_eq] at hd
  unfold parseU32
  dsimp only
  rw [if_neg (show ¬ d = plusChar by simp only [plusChar]; omega)]
  by_cases hv : digitsVal (d :: t) < 2 ^ 32
  · rw [if_pos ⟨by simp, hdig, hv⟩, if_pos hv]
  · rw [if_neg (by
      intro hc
      exact hv hc.2.2), if_neg hv]

theorem compValue_compBody (p : List Nat × Bool) (hne : p.1 ≠ [])
    (hdig : ∀ c ∈ p.1, isDigitB c = true) :
    compValue (compBody p) = compSpecValue p := by
  have hlast : p.1.getLast? ≠ some aposChar := by
    cases h : p.1.getLast? with
    | none => simp
    | some a =>
      have ha : a ∈ p.1 := by
        have := List.getLast?_eq_getLast p.1 hne
        rw [this] at h
        injection h with h
        rw [← h]
        exact List.getLast_mem hne
      have := hdig a ha
      simp only [isDigitB, Bool.and_eq_true, decide_eq_true_eq] at this
      simp only [ne_eq, aposChar, Option.some.injEq]
      omega
  rcases hb : p.2 with _ | _
  · have hbody : compBody p = p.1 := by
      simp [compBody, hb]
    rw [hbody]
    unfold compValue
    rw [show stripApos p.1 = none from by
      unfold stripApos
      rw [if_neg hlast]]
    dsimp only
    rw [parseU32_digits p.1 hne hdig]
    unfold compSpecValue
    rw [hb]
    by_cases hv : digitsVal p.1 < 2 ^ 32
    · rw [if_pos hv, if_pos hv]
      simp
    · rw [if_neg hv, if_neg hv]
  · have hbody : compBody p = p.1 ++ [aposChar] := by
      simp [compBody, hb]
    rw [hbody]
    unfold compValue
    rw [show stripApos (p.1 ++ [aposChar]) = some p.1 from by
      unfold stripApos
      rw [if_pos (by rw [List.getLast?_concat]), List.dropLast_concat]]
    dsimp only
    rw [parseU32_digits p.1 hne hdig]
    unfold compSpecValue
    rw [hb]
    by_cases hv : digitsVal p.1 < 2 ^ 32
    · rw [if_pos hv, if_pos hv]
      simp
    · rw [if_neg hv, if_neg hv]
      simp

/-- C8 (amended): parse_path accepts exactly the strings of the letter m
followed by one or more groups of a slash, one or more decimal digits and
an optional apostrophe (digit runs of any length, not only u32 numerals);
an accepted path maps left-to-right to the values of those components
whose numeral fits in a u32, adding 2 to the 31 (wrapping modulo 2 to the
32) for a trailing apostrophe, while components whose numeral exceeds the
u32 range are silently dropped rather than failing; every non-matching
string, including the bare m, fails with the invalid-derivation-path
error; and derive_path on an accepted path whose parsed list is non-empty
derives each parsed index in order. -/

theorem matchesPath_cons2 (c0 c1 : Nat) (rest : List Nat) :
    matchesPath (c0 :: c1 :: rest) = (c0 == mChar && (c1 == slashChar && matchGroup rest)) := by
  rw [show matchesPath (c0 :: c1 :: rest)
      = (c0 == mChar && c1 == slashChar && matchGroup rest) from rfl]
  rw [Bool.and_assoc]

theorem c8_parse_path_grammar :
    (∀ s : List Nat, (∃ l, parse_path s = .ok l) ↔ ∃ comps, IsPathDecomp s comps)
    ∧ (∀ (s : List Nat) (comps : List (List Nat × Bool)), IsPathDecomp s comps →
        parse_path s = .ok (comps.filterMap compSpecValue))
    ∧ (∀ (hm : List Nat → List Nat → List Nat) (sp : Nat → List Nat)
        (sh rp : List Nat → List Nat) (x : XPrv) (s : List Nat) (i : Nat) (rest : List Nat),
        parse_path s = .ok (i :: rest) →
        x.derive_path hm sp sh rp s = some (rest.foldl (fun acc j => acc.bind
          (fun k => k.derive hm sp sh rp j)) (x.derive hm sp sh rp i))) := by
  have hmatch : ∀ s : List Nat, matchesPath s = true ↔ ∃ comps, IsPathDecomp s comps := by
    intro s
    constructor
    · intro h
      match s, h with
      | c0 :: c1 :: Y, h =>
        rw [matchesPath_cons2, Bool.and_eq_true, Bool.and_eq_true, beq_iff_eq, beq_iff_eq] at h
        obtain ⟨rfl, rfl, hg⟩ := h
        obtain ⟨comps, hc1, hc2, hc3⟩ := (matchers_sound Y.length Y le_rfl).1 hg
        exact ⟨comps, hc1, hc2, by rw [← hc3]⟩
    · rintro ⟨comps, hc1, hc2, rfl⟩
      cases comps with
      | nil => exact absurd rfl hc1
      | cons p rest =>
        have h1 := (wfComps_matchers (p :: rest) hc2).1
        have hflat : ((p :: rest).map groupBytes).flatten
            = slashChar :: (compBody p ++ (rest.map groupBytes).flatten) := by
          simp [groupBytes, compBody, List.append_assoc]
        rw [hflat, matchComp_slash] at h1
        rw [hflat, matchesPath_cons2, h1]
        simp
  refine ⟨?_, ?_, ?_⟩
  · intro s
    constructor
    · rintro ⟨l, hl⟩
      unfold parse_path at hl
      by_cases hm : matchesPath s = true
      · exact (hmatch s).mp hm
      · rw [if_neg (by simpa using hm)] at hl
        exact absurd hl (by simp)
    · intro h
      refine ⟨((splitSlash s).drop 1).filterMap compValue, ?_⟩
      unfold parse_path
      rw [if_pos ((hmatch s).mpr h)]
  · rintro s comps hd
    obtain ⟨hc1, hc2, rfl⟩ := hd
    unfold parse_path
    rw [if_pos ((hmatch _).mpr ⟨comps, hc1, hc2, rfl⟩)]
    have hsplit : splitSlash (mChar :: (comps.map groupBytes).flatten)
        = [mChar] :: comps.map compBody := by
      rw [splitSlash_cons, if_neg (by decide), splitSlash_flatten comps hc2 hc1]
      simp
    rw [hsplit]
    simp only [List.drop_succ_cons, List.drop_zero, List.filterMap_map]
    congr 1
    apply List.filterMap_congr
    intro p hp
    exact compValue_compBody p (hc2 p hp).1 (hc2 p hp).2
  · intro hm sp sh rp x s i rest h
    unfold XPrv.derive_path
    rw [h]


/-- Counterexample for C8 as stated: the string m/4294967296 is not of
the claimed form m(/<u32>'?)+ since 4294967296 is 2 to the 32, yet
parse_path accepts it, and returns the empty index list because the
overflowing component is silently dropped instead of failing. -/
theorem c8_parse_path_counterexample :
    parse_path (pathChars "m/4294967296") = .ok [] := by decide

/-- Witness for C8 at the concrete path m/12/7 with its decomposition
into the digit groups 12 and 7. -/
theorem c8_parse_path_grammar_witness :
    parse_path (pathChars "m/12/7") = .ok [12, 7] := by
  rw [c8_parse_path_grammar.2.1 (pathChars "m/12/7") [([49, 50], false), ([55], false)]
    (by unfold IsPathDecomp WfComps; decide)]
  decide


theorem toLE_length : ∀ (w n : Nat), (toLE w n).length = w := by
  intro w
  induction w with
  | zero => intro n; rfl
  | succ w ih => intro n; simp [toLE, ih]

theorem fromLE_toLE : ∀ (w n : Nat), n < 2 ^ (8 * w) → fromLE (toLE w n) = n := by
  intro w
  induction w with
  | zero =>
    intro n h
    simp only [Nat.mul_zero, Nat.pow_zero, Nat.lt_one_iff] at h
    simp [toLE, fromLE, h]
  | succ w ih =>
    intro n h
    have hd : n / 256 < 2 ^ (8 * w) := by
      rw [Nat.div_lt_iff_lt_mul (by norm_num)]
      calc n < 2 ^ (8 * (w + 1)) := h
      _ = 2 ^ (8 * w) * 256 := by
        rw [show 8 * (w + 1) = 8 * w + 8 by ring, Nat.pow_add]
    have hstep : fromLE (toLE (w + 1) n) = n % 256 + 256 * fromLE (toLE w (n / 256)) := rfl
    rw [hstep, ih (n / 256) hd]
    omega

theorem readBytesN_append (k : Nat) (a r : List Nat) (h : a.length = k) :
    readBytesN k (a ++ r) = some (a, r) := by
  subst h
  unfold readBytesN
  rw [if_pos (by simp), List.take_left, List.drop_left]

theorem read_var_int_encode (n : Nat) (h : n < 2 ^ 64) (r : List Nat) :
    read_var_int (encode_compact_size n ++ r) = some (n, r) := by
  unfold encode_compact_size
  by_cases h1 : n ≤ 252
  · rw [if_pos h1]
    show read_var_int (n :: r) = some (n, r)
    unfold read_var_int
    dsimp only
    rw [if_neg (by omega), if_neg (by omega), if_neg (by omega)]
  · rw [if_neg h1]
    by_cases h2 : n ≤ 0xFFFF
    · rw [if_pos h2, List.cons_append]
      unfold read_var_int
      dsimp only
      rw [if_pos rfl, readBytesN_append 2 (toLE 2 n) r (toLE_length 2 n)]
      rw [Option.map_some']
      rw [fromLE_toLE 2 n (by norm_num at h2 ⊢; omega)]
    · rw [if_neg h2]
      by_cases h3 : n ≤ 0xFFFFFFFF
      · rw [if_pos h3, List.cons_append]
        unfold read_var_int
        dsimp only
        rw [if_neg (by norm_num), if_pos rfl,
          readBytesN_append 4 (toLE 4 n) r (toLE_length 4 n)]
        rw [Option.map_some']
        rw [fromLE_toLE 4 n (by norm_num at h3 ⊢; omega)]
      · rw [if_neg h3, List.cons_append]
        unfold read_var_int
        dsimp only
        rw [if_neg (by norm_num), if_neg (by norm_num), if_pos rfl,
          readBytesN_append 8 (toLE 8 n) r (toLE_length 8 n)]
        rw [Option.map_some']
        rw [fromLE_toLE 8 n (by norm_num at h ⊢; omega)]


theorem parseInput_serialize (i : Input) (hh : i.tx_hash.length = 32)
    (hidx : i.index < 2 ^ 32) (hseq : i.sequence < 2 ^ 32)
    (hss : i.script_sig.length < 2 ^ 64) (r : List Nat) :
    parseInput (serializeInput i ++ r) = some (i, r) := by
  obtain ⟨th, idx, ss, seq⟩ := i
  simp only at hh hidx hseq hss
  have harr : serializeInput ⟨th, idx, ss, seq⟩ ++ r
      = th.reverse ++ (toLE 4 idx ++ (encode_compact_size ss.length
          ++ (ss ++ (toLE 4 seq ++ r)))) := by
    simp [serializeInput, List.append_assoc]
  rw [harr]
  unfold parseInput
  rw [readBytesN_append 32 th.reverse _ (by simp [hh])]
  dsimp only
  rw [readBytesN_append 4 (toLE 4 idx) _ (toLE_length 4 idx)]
  dsimp only
  rw [read_var_int_encode ss.length hss]
  dsimp only
  rw [readBytesN_append ss.length ss _ rfl]
  dsimp only
  rw [readBytesN_append 4 (toLE 4 seq) _ (toLE_length 4 seq)]
  dsimp only
  rw [List.reverse_reverse, fromLE_toLE 4 idx (by norm_num at hidx ⊢; omega),
    fromLE_toLE 4 seq (by norm_num at hseq ⊢; omega)]

theorem parseOutput_serialize (o : Output) (ha : o.amount < 2 ^ 64)
    (hs : o.script.length < 2 ^ 64) (r : List Nat) :
    parseOutput (serializeOutput o ++ r) = some (o, r) := by
  obtain ⟨a, sc⟩ := o
  simp only at ha hs
  have harr : serializeOutput ⟨a, sc⟩ ++ r
      = toLE 8 a ++ (encode_compact_size sc.length ++ (sc ++ r)) := by
    simp [serializeOutput, List.append_assoc]
  rw [harr]
  unfold parseOutput
  rw [readBytesN_append 8 (toLE 8 a) _ (toLE_length 8 a)]
  dsimp only
  rw [read_var_int_encode sc.length hs]
  dsimp only
  rw [readBytesN_append sc.length sc _ rfl]
  dsimp only
  rw [fromLE_toLE 8 a (by norm_num at ha ⊢; omega)]

theorem parseCount_flatten {α : Type} (p : List Nat → Option (α × List Nat))
    (ser : α → List Nat) :
    ∀ xs : List α, (∀ x ∈ xs, ∀ r, p (ser x ++ r) = some (x, r)) → ∀ r,
      parseCount p xs.length ((xs.map ser).flatten ++ r) = some (xs, r) := by
  intro xs
  induction xs with
  | nil => intro _ r; simp [parseCount]
  | cons x rest ih =>
    intro hx r
    have harr : (((x :: rest).map ser).flatten ++ r)
        = ser x ++ ((rest.map ser).flatten ++ r) := by
      simp [List.append_assoc]
    rw [List.length_cons, harr]
    unfold parseCount
    rw [hx x (by simp) _]
    dsimp only
    rw [ih (fun y hy => hx y (by simp [hy])) r]

/-- C5: deserializing the serialization of a transaction returns the same
transaction exactly — same version, same inputs with identical fields in
the same order, same outputs in order, same locktime — for every
transaction whose inputs carry 32-byte tx_hashes (and whose integer
fields are in the ranges the Rust u32 and u64 types force). -/
theorem c5_codec_round_trip (t : Transaction) (h : WfTransaction t) :
    deserializeTransaction (serializeTransaction t) = some (.ok t) := by
  obtain ⟨v, ins, outs, lock⟩ := t
  obtain ⟨hv, hl, hni, hno, hins, houts⟩ := h
  simp only at hv hl hni hno hins houts
  have harr : serializeTransaction ⟨v, ins, outs, lock⟩
      = toLE 4 v ++ (encode_compact_size ins.length ++ ((ins.map serializeInput).flatten
          ++ (encode_compact_size outs.length ++ ((outs.map serializeOutput).flatten
          ++ (toLE 4 lock ++ []))))) := by
    simp [serializeTransaction, List.append_assoc]
  rw [harr]
  unfold deserializeTransaction
  rw [readBytesN_append 4 (toLE 4 v) _ (toLE_length 4 v)]
  dsimp only
  rw [read_var_int_encode ins.length hni]
  dsimp only
  rw [parseCount_flatten parseInput serializeInput ins
    (fun x hx r => parseInput_serialize x (hins x hx).1 (hins x hx).2.1
      (hins x hx).2.2.1 (hins x hx).2.2.2 r)]
  dsimp only
  rw [read_var_int_encode outs.length hno]
  dsimp only
  rw [parseCount_flatten parseOutput serializeOutput outs
    (fun x hx r => parseOutput_serialize x (houts x hx).1 (houts x hx).2 r)]
  dsimp only
  rw [readBytesN_append 4 (toLE 4 lock) _ (toLE_length 4 lock)]
  dsimp only
  rw [if_pos rfl, fromLE_toLE 4 v (by norm_num at hv ⊢; omega),
    fromLE_toLE 4 lock (by norm_num at hl ⊢; omega)]

/-- Witness for C5 on a concrete one-input one-output transaction. -/
theorem c5_codec_round_trip_witness :
    deserializeTransaction (serializeTransaction
      { version := 1,
        inputs := [{ tx_hash := List.range 32, index := 0,
                     script_sig := [0x51], sequence := 0xFFFFFFFF }],
        outputs := [⟨5000, [0x76]⟩], locktime := 0 })
      = some (.ok
        { version := 1,
          inputs := [{ tx_hash := List.range 32, index := 0,
                       script_sig := [0x51], sequence := 0xFFFFFFFF }],
          outputs := [⟨5000, [0x76]⟩], locktime := 0 }) :=
  c5_codec_round_trip _ (by unfold WfTransaction; decide)


theorem encode_compact_size_small (n : Nat) (h : n ≤ 252) :
    encode_compact_size n = [n] := by
  unfold encode_compact_size
  rw [if_pos h]

theorem hash_fork_isOk (dsha : List Nat → List Nat) (t : Transaction) (i : Nat)
    (script : List Nat) (amount : Nat) (hi : i < t.inputs.length) :
    ∃ pre, t.hash_fork dsha i script 0x41 amount = .ok (dsha pre) := by
  unfold Transaction.hash_fork
  simp only [if_neg (show ¬(hasForkId 0x41 = false) by decide), dif_pos hi]
  exact ⟨_, rfl⟩

theorem hash_fork_hashOf (dsha : List Nat → List Nat) (t : Transaction) (i : Nat)
    (script : List Nat) (amount : Nat) (hi : i < t.inputs.length) :
    t.hash_fork dsha i script 0x41 amount
      = .ok (hashOf (t.hash_fork dsha i script 0x41 amount)) := by
  obtain ⟨pre, hp⟩ := hash_fork_isOk dsha t i script amount hi
  rw [hp]
  rfl

theorem hashOf_length (dsha : List Nat → List Nat) (hdsha : ∀ x, (dsha x).length = 32)
    (t : Transaction) (i : Nat) (script : List Nat) (amount : Nat)
    (hi : i < t.inputs.length) :
    (hashOf (t.hash_fork dsha i script 0x41 amount)).length = 32 := by
  obtain ⟨pre, hp⟩ := hash_fork_isOk dsha t i script amount hi
  rw [hp]
  exact hdsha pre

theorem hash_fork_congr (dsha : List Nat → List Nat) (v : Nat) (hv : hasForkId v = true)
    (t t' : Transaction)
    (hlen : t'.inputs.length = t.inputs.length)
    (hview : ∀ (j : Nat) (hj' : j < t'.inputs.length) (hj : j < t.inputs.length),
        (t'.inputs.get ⟨j, hj'⟩).tx_hash = (t.inputs.get ⟨j, hj⟩).tx_hash
        ∧ (t'.inputs.get ⟨j, hj'⟩).index = (t.inputs.get ⟨j, hj⟩).index
        ∧ (t'.inputs.get ⟨j, hj'⟩).sequence = (t.inputs.get ⟨j, hj⟩).sequence)
    (hout : t'.outputs = t.outputs) (hver : t'.version = t.version)
    (hlock : t'.locktime = t.locktime) :
    ∀ (i : Nat) (script : List Nat) (amount : Nat),
      t'.hash_fork dsha i script v amount = t.hash_fork dsha i script v amount := by
  intro i script amount
  have hmap1 : t'.inputs.map (fun inp => inp.tx_hash.reverse ++ toLE 4 inp.index)
      = t.inputs.map (fun inp => inp.tx_hash.reverse ++ toLE 4 inp.index) := by
    apply List.ext_get (by simp [hlen])
    intro n h1 h2
    rw [List.get_map, List.get_map]
    have hv2 := hview n (by simpa using h1) (by simpa using h2)
    rw [hv2.1, hv2.2.1]
  have hmap2 : t'.inputs.map (fun inp => toLE 4 inp.sequence)
      = t.inputs.map (fun inp => toLE 4 inp.sequence) := by
    apply List.ext_get (by simp [hlen])
    intro n h1 h2
    rw [List.get_map, List.get_map]
    have hv2 := hview n (by simpa using h1) (by simpa using h2)
    rw [hv2.2.2]
  unfold Transaction.hash_fork
  rw [hv]
  simp only [Bool.true_eq_false, if_false]
  by_cases hi : i < t.inputs.length
  · rw [dif_pos hi, dif_pos (by omega)]
    have hvi := hview i (by omega) hi
    rw [hmap1, hmap2, hout, hver, hlock, hvi.1, hvi.2.1, hvi.2.2]
  · rw [dif_neg hi, dif_neg (by omega)]


theorem get_set_ne (l : List Input) (i j : Nat) (a : Input)
    (hj : j < (l.set i a).length) (hj2 : j < l.length) (hne : i ≠ j) :
    (l.set i a).get ⟨j, hj⟩ = l.get ⟨j, hj2⟩ := by
  show (l.set i a)[j] = l[j]
  rw [List.getElem_set]
  rw [if_neg hne]

theorem get_set_eq (l : List Input) (i : Nat) (a : Input)
    (hi : i < (l.set i a).length) :
    (l.set i a).get ⟨i, hi⟩ = a := by
  show (l.set i a)[i] = a
  rw [List.getElem_set]
  rw [if_pos rfl]

theorem signLoop_spec {SK PK Sig : Type} (dsha : List Nat → List Nat)
    (ecdsaSign : List Nat → SK → Sig) (serDer : Sig → List Nat) (serPk : PK → List Nat)
    (prev : List Nat × Nat → Option Output) (keys : List Nat → Option (SK × PK))
    (hdsha : ∀ x, (dsha x).length = 32) :
    ∀ (n : Nat) (t : Transaction) (i : Nat), t.inputs.length - i ≤ n →
    (∀ j (hj : j < t.inputs.length), i ≤ j → Signable prev keys (t.inputs.get ⟨j, hj⟩)) →
    ∃ t', signLoop dsha ecdsaSign serDer serPk prev keys t i = .ok t'
      ∧ t'.inputs.length = t.inputs.length
      ∧ t'.outputs = t.outputs ∧ t'.version = t.version ∧ t'.locktime = t.locktime
      ∧ (∀ j (hj : j < t.inputs.length) (hj' : j < t'.inputs.length),
          (j < i → t'.inputs.get ⟨j, hj'⟩ = t.inputs.get ⟨j, hj⟩)
          ∧ (i ≤ j → ∀ o h2 sk pk,
              prev ((t.inputs.get ⟨j, hj⟩).tx_hash, (t.inputs.get ⟨j, hj⟩).index) = some o →
              o.address = .ok h2 → keys h2 = some (sk, pk) →
              t'.inputs.get ⟨j, hj'⟩ = { t.inputs.get ⟨j, hj⟩ with
                script_sig := mkSigScript ecdsaSign serDer serPk
                  (hashOf (t.hash_fork dsha j o.script 0x41 o.amount)) sk pk })) := by
  intro n
  induction n with
  | zero =>
    intro t i hn hsig
    have hge : t.inputs.length ≤ i := by omega
    refine ⟨t, ?_, rfl, rfl, rfl, rfl, ?_⟩
    · rw [signLoop]
      rw [dif_neg (by omega)]
    · intro j hj hj'
      exact ⟨fun _ => rfl, fun hij => absurd hj (by omega)⟩
  | succ n ih =>
    intro t i hn hsig
    by_cases h : i < t.inputs.length
    · obtain ⟨o, h2, sk, pk, ho, haddr, hkey⟩ := hsig i h le_rfl
      set newInp : Input := { t.inputs.get ⟨i, h⟩ with
        script_sig := mkSigScript ecdsaSign serDer serPk
          (hashOf (t.hash_fork dsha i o.script 0x41 o.amount)) sk pk } with hnew
      set t1 : Transaction := { t with inputs := t.inputs.set i newInp } with ht1
      have hstep : signLoop dsha ecdsaSign serDer serPk prev keys t i
          = signLoop dsha ecdsaSign serDer serPk prev keys t1 (i + 1) := by
        rw [signLoop]
        rw [dif_pos h]
        dsimp only
        rw [ho]
        dsimp only
        rw [hash_fork_hashOf dsha t i o.script o.amount h]
        dsimp only
        rw [haddr]
        dsimp only
        rw [hkey]
        dsimp only
        rw [if_pos (hashOf_length dsha hdsha t i o.script o.amount h)]
        rfl
      have hlen1 : t1.inputs.length = t.inputs.length := by
        rw [ht1]
        simp
      have hview : ∀ (k : Nat) (hk' : k < t1.inputs.length) (hk : k < t.inputs.length),
          (t1.inputs.get ⟨k, hk'⟩).tx_hash = (t.inputs.get ⟨k, hk⟩).tx_hash
          ∧ (t1.inputs.get ⟨k, hk'⟩).index = (t.inputs.get ⟨k, hk⟩).index
          ∧ (t1.inputs.get ⟨k, hk'⟩).sequence = (t.inputs.get ⟨k, hk⟩).sequence := by
        intro k hk' hk
        by_cases hki : i = k
        · subst hki
          have hg : t1.inputs.get ⟨i, hk'⟩ = newInp := get_set_eq t.inputs i newInp hk'
          rw [hg]
          exact ⟨rfl, rfl, rfl⟩
        · have hg : t1.inputs.get ⟨k, hk'⟩ = t.inputs.get ⟨k, hk⟩ :=
            get_set_ne t.inputs i k newInp hk' hk hki
          rw [hg]
          exact ⟨rfl, rfl, rfl⟩
      have hsig1 : ∀ j (hj : j < t1.inputs.length), i + 1 ≤ j →
          Signable prev keys (t1.inputs.get ⟨j, hj⟩) := by
        intro j hj hij
        have hjt : j < t.inputs.length := by omega
        have hg : t1.inputs.get ⟨j, hj⟩ = t.inputs.get ⟨j, hjt⟩ :=
          get_set_ne t.inputs i j newInp hj hjt (by omega)
        rw [hg]
        exact hsig j hjt (by omega)
      obtain ⟨t', hrun, hlen', hout', hver', hlock', hchar⟩ :=
        ih t1 (i + 1) (by omega) hsig1
      refine ⟨t', by rw [hstep]; exact hrun, by rw [hlen', hlen1], by rw [hout'],
        by rw [hver'], by rw [hlock'], ?_⟩
      intro j hj hj'
      have hjt1 : j < t1.inputs.length := by omega
      obtain ⟨hlt', hge'⟩ := hchar j hjt1 hj'
      constructor
      · intro hji
        rw [hlt' (by omega)]
        exact get_set_ne t.inputs i j newInp hjt1 hj (by omega)
      · intro hij o' h2' sk' pk' ho' haddr' hkey'
        by_cases hji : j = i
        · subst hji
          have hoo : o = o' := by
            have := ho.symm.trans ho'
            injection this
          subst hoo
          have hhh : h2 = h2' := by
            have := haddr.symm.trans haddr'
            injection this
          subst hhh
          have hkk : (sk, pk) = (sk', pk') := by
            have := hkey.symm.trans hkey'
            injection this
          injection hkk with hk1 hk2
          subst hk1
          subst hk2
          rw [hlt' (by omega)]
          exact get_set_eq t.inputs j newInp hjt1
        · have hne : i ≠ j := fun he => hji he.symm
          have hget : t1.inputs.get ⟨j, hjt1⟩ = t.inputs.get ⟨j, hj⟩ :=
            get_set_ne t.inputs i j newInp hjt1 hj hne
          have hres := hge' (by omega) o' h2' sk' pk' (by rw [hget]; exact ho') haddr' hkey'
          rw [hres, hget]
          have hcong := hash_fork_congr dsha 0x41 (by decide) t t1 hlen1 hview rfl rfl rfl
            j o'.script o'.amount
          rw [hcong]
    · refine ⟨t, ?_, rfl, rfl, rfl, rfl, ?_⟩
      · rw [signLoop]
        rw [dif_neg h]
      · intro j hj hj'
        exact ⟨fun _ => rfl, fun hij => absurd hj (by omega)⟩


theorem verifyLoop_spec {SK PK Sig : Type} (dsha : List Nat → List Nat)
    (ecdsaSign : List Nat → SK → Sig) (serDer : Sig → List Nat)
    (fromDer : List Nat → Option Sig) (serPk : PK → List Nat)
    (pkFromSlice : List Nat → Option PK) (ecdsaVerify : Sig → List Nat → PK → Bool)
    (pubOf : SK → PK)
    (prev : List Nat × Nat → Option Output) (keys : List Nat → Option (SK × PK))
    (hdsha : ∀ x, (dsha x).length = 32)
    (hser : ∀ s, fromDer (serDer s) = some s)
    (hderlen : ∀ s, (serDer s).length ≤ 251)
    (hpk : ∀ p, pkFromSlice (serPk p) = some p)
    (hverify : ∀ sk m, m.length = 32 → ecdsaVerify (ecdsaSign m sk) m (pubOf sk) = true)
    (hkeys : ∀ h2 sk pk, keys h2 = some (sk, pk) → pk = pubOf sk) :
    ∀ (n : Nat) (t : Transaction) (i : Nat), t.inputs.length - i ≤ n →
    (∀ j (hj : j < t.inputs.length), i ≤ j →
      ∃ o h2 sk pk,
        prev ((t.inputs.get ⟨j, hj⟩).tx_hash, (t.inputs.get ⟨j, hj⟩).index) = some o
        ∧ o.address = .ok h2 ∧ keys h2 = some (sk, pk)
        ∧ (t.inputs.get ⟨j, hj⟩).script_sig = mkSigScript ecdsaSign serDer serPk
            (hashOf (t.hash_fork dsha j o.script 0x41 o.amount)) sk pk) →
    verifyLoop dsha fromDer pkFromSlice ecdsaVerify prev t i = .ok := by
  intro n
  induction n with
  | zero =>
    intro t i hn _
    rw [verifyLoop, dif_neg (by omega)]
  | succ n ih =>
    intro t i hn hsig
    by_cases h : i < t.inputs.length
    · obtain ⟨o, h2, sk, pk, ho, haddr, hkey, hss⟩ := hsig i h le_rfl
      have hpkeq := hkeys h2 sk pk hkey
      subst hpkeq
      have hL : encode_compact_size ((serDer (ecdsaSign
          (hashOf (t.hash_fork dsha i o.script 0x41 o.amount)) sk)).length + 1)
          = [(serDer (ecdsaSign
              (hashOf (t.hash_fork dsha i o.script 0x41 o.amount)) sk)).length + 1] :=
        encode_compact_size_small _ (by have := hderlen (ecdsaSign
          (hashOf (t.hash_fork dsha i o.script 0x41 o.amount)) sk); omega)
      set hash := hashOf (t.hash_fork dsha i o.script 0x41 o.amount) with hhash
      set sg := ecdsaSign hash sk with hsg
      set der := serDer sg with hder
      set pks := serPk (pubOf sk) with hpks
      have hcanon : [der.length + 1] ++ der ++ [65, 33] ++ pks
          = (der.length + 1) :: (der ++ 65 :: 33 :: pks) := by simp
      rw [verifyLoop, dif_pos h]
      dsimp only
      rw [hss]
      dsimp only [mkSigScript]
      rw [hL, hcanon]
      have hgd0 : ((der.length + 1) :: (der ++ 65 :: 33 :: pks)).getD 0 0 = der.length + 1 := rfl
      rw [hgd0]
      have hlenss : ((der.length + 1) :: (der ++ 65 :: 33 :: pks)).length
          = der.length + 3 + pks.length := by
        simp only [List.length_cons, List.length_append]
        omega
      rw [if_neg (by rw [hlenss]; omega), if_pos (by rw [hlenss]; omega)]
      have htake : (((der.length + 1) :: (der ++ 65 :: 33 :: pks)).drop 1).take
          (der.length + 1 - 1) = der := by
        simp [List.take_left]
      rw [htake]
      have hfd : fromDer der = some sg := by
        rw [hder, hser]
      rw [hfd]
      dsimp only
      rw [if_pos (by rw [hlenss]; omega)]
      have hdrop : ((der.length + 1) :: (der ++ 65 :: 33 :: pks)).drop (der.length + 1 + 2)
          = pks := by
        rw [show der.length + 1 + 2 = (der.length + 2) + 1 by omega, List.drop_succ_cons]
        rw [show der ++ 65 :: 33 :: pks = (der ++ [65, 33]) ++ pks from by simp]
        rw [show der.length + 2 = (der ++ [65, 33]).length from by simp]
        exact List.drop_left _ _
      rw [hdrop]
      have hfp : pkFromSlice pks = some (pubOf sk) := by
        rw [hpks, hpk]
      rw [hfp]
      dsimp only
      have hgdL : ((der.length + 1) :: (der ++ 65 :: 33 :: pks)).getD (der.length + 1) 0
          = 65 := by
        rw [show (der.length + 1) :: (der ++ 65 :: 33 :: pks)
            = ([der.length + 1] ++ der) ++ (65 :: 33 :: pks) from by simp]
        rw [List.getD_append_right _ _ _ _ (by simp)]
        simp
      rw [hgdL, ho]
      dsimp only
      rw [hash_fork_hashOf dsha t i o.script o.amount h]
      dsimp only
      have hlen32 : hash.length = 32 := hashOf_length dsha hdsha t i o.script o.amount h
      rw [if_pos hlen32, hverify sk hash hlen32, if_pos rfl]
      apply ih t (i + 1) (by omega)
      intro j hj hij
      exact hsig j hj (by omega)
    · rw [verifyLoop, dif_neg h]

/-- C1: for every transaction whose every input outpoint is present in
the previous-outputs map with a canonical 25-byte P2PKH locking script
whose 20-byte hash is a key of the address-keys map (that is, every input
is Signable), Transaction::sign_inputs succeeds, and Transaction::verify
with the same previous-outputs map succeeds on the signed transaction.
The secp256k1 and sha2 entry points are constrained only by their
documented contracts: double-SHA-256 yields 32 bytes, DER parse inverts
DER serialization, pubkey parse inverts pubkey serialization, DER
signatures stay below the single-byte varint bound, verification accepts
a signature made with the matching secret key, and the address-keys map
holds matching key pairs. -/

theorem c1_sign_verify_roundtrip {SK PK Sig : Type}
    (dsha : List Nat → List Nat) (ecdsaSign : List Nat → SK → Sig)
    (serDer : Sig → List Nat) (fromDer : List Nat → Option Sig)
    (serPk : PK → List Nat) (pkFromSlice : List Nat → Option PK)
    (ecdsaVerify : Sig → List Nat → PK → Bool) (pubOf : SK → PK)
    (prev : List Nat × Nat → Option Output) (keys : List Nat → Option (SK × PK))
    (t : Transaction)
    (hdsha : ∀ x, (dsha x).length = 32)
    (hser : ∀ s, fromDer (serDer s) = some s)
    (hderlen : ∀ s, (serDer s).length ≤ 251)
    (hpkp : ∀ p, pkFromSlice (serPk p) = some p)
    (hverify : ∀ sk m, m.length = 32 → ecdsaVerify (ecdsaSign m sk) m (pubOf sk) = true)
    (hkeys : ∀ h2 sk pk, keys h2 = some (sk, pk) → pk = pubOf sk)
    (hins : ∀ j (hj : j < t.inputs.length), Signable prev keys (t.inputs.get ⟨j, hj⟩)) :
    ∃ t', Transaction.sign_inputs dsha ecdsaSign serDer serPk prev keys t = .ok t'
      ∧ Transaction.verify dsha fromDer pkFromSlice ecdsaVerify prev t' = .ok := by
  obtain ⟨t', hrun, hlen', hout', hver', hlock', hchar⟩ :=
    signLoop_spec dsha ecdsaSign serDer serPk prev keys hdsha t.inputs.length t 0 (by omega)
      (fun j hj _ => hins j hj)
  have hview : ∀ (k : Nat) (hk' : k < t'.inputs.length) (hk : k < t.inputs.length),
      (t'.inputs.get ⟨k, hk'⟩).tx_hash = (t.inputs.get ⟨k, hk⟩).tx_hash
      ∧ (t'.inputs.get ⟨k, hk'⟩).index = (t.inputs.get ⟨k, hk⟩).index
      ∧ (t'.inputs.get ⟨k, hk'⟩).sequence = (t.inputs.get ⟨k, hk⟩).sequence := by
    intro k hk' hk
    obtain ⟨o3, h3, sk3, pk3, ho3, haddr3, hkey3⟩ := hins k hk
    have hc3 := (hchar k hk hk').2 (by omega) o3 h3 sk3 pk3 ho3 haddr3 hkey3
    rw [hc3]
    exact ⟨rfl, rfl, rfl⟩
  refine ⟨t', hrun, ?_⟩
  apply verifyLoop_spec dsha ecdsaSign serDer fromDer serPk pkFromSlice ecdsaVerify pubOf
    prev keys hdsha hser hderlen hpkp hverify hkeys t'.inputs.length t' 0 (by omega)
  intro j hj _
  have hjt : j < t.inputs.length := by omega
  obtain ⟨o, h2, sk, pk, ho, haddr, hkey⟩ := hins j hjt
  have hc := (hchar j hjt hj).2 (by omega) o h2 sk pk ho haddr hkey
  refine ⟨o, h2, sk, pk, by rw [hc]; exact ho, haddr, hkey, ?_⟩
  rw [hc]
  have hcong := hash_fork_congr dsha 0x41 (by decide) t t' hlen' hview hout' hver' hlock'
    j o.script o.amount
  rw [hcong]


theorem c1_sign_verify_roundtrip_witness :
    ∃ t', Transaction.sign_inputs (fun _ => List.replicate 32 0)
        (fun (_ : List Nat) (_ : Unit) => ()) (fun _ => []) (fun _ => List.replicate 33 7)
        (fun p => if p = (List.replicate 32 2, 0) then
            some ⟨5000, [0x76, 0xA9, 0x14] ++ List.replicate 20 9 ++ [0x88, 0xAC]⟩
          else none)
        (fun h => if h = List.replicate 20 9 then some ((), ()) else none)
        { version := 1,
          inputs := [{ tx_hash := List.replicate 32 2, index := 0,
                       script_sig := [], sequence := 0xFFFFFFFF }],
          outputs := [⟨4000, [0x51]⟩], locktime := 0 } = .ok t'
      ∧ Transaction.verify (fun _ => List.replicate 32 0) (fun _ => some ())
        (fun _ => some ()) (fun _ _ _ => true)
        (fun p => if p = (List.replicate 32 2, 0) then
            some ⟨5000, [0x76, 0xA9, 0x14] ++ List.replicate 20 9 ++ [0x88, 0xAC]⟩
          else none) t' = .ok := by
  apply c1_sign_verify_roundtrip (fun _ => List.replicate 32 0)
    (fun (_ : List Nat) (_ : Unit) => ()) (fun _ => []) (fun _ => some ())
    (fun _ => List.replicate 33 7) (fun _ => some ()) (fun _ _ _ => true) (fun _ => ())
    (fun p => if p = (List.replicate 32 2, 0) then
        some ⟨5000, [0x76, 0xA9, 0x14] ++ List.replicate 20 9 ++ [0x88, 0xAC]⟩
      else none)
    (fun h => if h = List.replicate 20 9 then some ((), ()) else none)
    { version := 1,
      inputs := [{ tx_hash := List.replicate 32 2, index := 0,
                   script_sig := [], sequence := 0xFFFFFFFF }],
      outputs := [⟨4000, [0x51]⟩], locktime := 0 }
    (fun _ => (by decide : (List.replicate 32 0).length = 32)) (fun _ => rfl)
    (fun _ => (by decide : ([] : List Nat).length ≤ 251)) (fun _ => rfl)
    (fun _ _ _ => rfl) (fun _ _ _ _ => rfl)
  intro j hj
  have hj0 : j = 0 := by
    simp only [List.length_cons, List.length_nil] at hj
    omega
  subst hj0
  refine ⟨⟨5000, [0x76, 0xA9, 0x14] ++ List.replicate 20 9 ++ [0x88, 0xAC]⟩,
    List.replicate 20 9, (), (), ?_, ?_, ?_⟩
  · show (if ((List.replicate 32 2 : List Nat), (0 : Nat)) = (List.replicate 32 2, 0) then
        some (⟨5000, [0x76, 0xA9, 0x14] ++ List.replicate 20 9 ++ [0x88, 0xAC]⟩ : Output)
      else none)
      = some ⟨5000, [0x76, 0xA9, 0x14] ++ List.replicate 20 9 ++ [0x88, 0xAC]⟩
    decide
  · show Output.address ⟨5000, [0x76, 0xA9, 0x14] ++ List.replicate 20 9 ++ [0x88, 0xAC]⟩
      = .ok (List.replicate 20 9)
    decide
  · show (if (List.replicate 20 9 : List Nat) = List.replicate 20 9 then
        some (((), ()) : Unit × Unit) else none) = some ((), ())
    decide

end BeeSV
